import Mathlib

/-!
Shallow embedding of the PL-ultimate identity-resolution pipeline.

The Python sources embedded here are:
  * build_master_list_local_pldb.py  (normalization, aggregation, fuzzy collapse)
  * augment_with_pygments.py         (Pygments external-taxonomy linker)
  * augment_with_rosettacode.py      (RosettaCode external-taxonomy linker)

Strings are modelled as Lean `String` / `List Char`.  All relevant inputs are
ASCII at the points the embedded code runs (the build script filters to ASCII
via `encode("ascii", "ignore")`, and the linker normalizers delete non-ASCII
characters), so Python's Unicode-aware `\w`, `\s`, `lower()` and `strip()` are
modelled by their ASCII restrictions.  Python-stdlib primitives that are
external collaborators of the repository (`unicodedata.normalize("NFKD", ·)`,
`hashlib.sha1` hex digests, `difflib.get_close_matches`) are abstracted as
function parameters; every theorem below holds for every choice of them.
-/

namespace PLUltimate

/-- ASCII whitespace: the characters matched by Python's `str.strip()` and the
regex class `\s` on ASCII text (space, tab, newline, carriage return, vertical
tab, form feed). -/
def isPyWs (c : Char) : Bool :=
  c == ' ' || c == '\t' || c == '\n' || c == '\r' || c == '\x0b' || c == '\x0c'

/-- ASCII restriction of the regex class `\w`: letters, digits, underscore. -/
def pyWordChar (c : Char) : Bool :=
  c.isAlphanum || c == '_'

/-- Drop leading and trailing ASCII whitespace (Python `str.strip()`). -/
def stripWs (l : List Char) : List Char :=
  ((l.dropWhile isPyWs).reverse.dropWhile isPyWs).reverse

/-- Drop leading and trailing copies of a given character
(Python `str.strip("-")`). -/
def stripChar (x : Char) (l : List Char) : List Char :=
  ((l.dropWhile (· == x)).reverse.dropWhile (· == x)).reverse

/-- Worker for `wsRunsTo`: `afterWs` records whether the previous character was
part of a whitespace run that has already been emitted. -/
def wsRunsToAux (r : Char) : Bool → List Char → List Char
  | _, [] => []
  | afterWs, c :: cs =>
    if isPyWs c then
      (if afterWs then [] else [r]) ++ wsRunsToAux r true cs
    else
      c :: wsRunsToAux r false cs

/-- Replace every maximal run of ASCII whitespace by the single character `r`
(Python `re.sub(r"\s+", r, s)`). -/
def wsRunsTo (r : Char) (l : List Char) : List Char :=
  wsRunsToAux r false l

/-- Python `s.replace("++", " plus plus ")`: leftmost, non-overlapping. -/
def replacePlusPlus : List Char → List Char
  | '+' :: '+' :: rest => " plus plus ".toList ++ replacePlusPlus rest
  | c :: rest => c :: replacePlusPlus rest
  | [] => []

/-- Python `s.replace("#", " sharp ")`. -/
def sharpExpand (l : List Char) : List Char :=
  l.flatMap fun c => if c == '#' then " sharp ".toList else [c]

/-- Python `s.replace("♯", "#")` (a single-character replacement). -/
def flatFix (c : Char) : Char :=
  if c == '♯' then '#' else c

/-- Embedding of `norm` from build_master_list_local_pldb.py.  The
`unicodedata.normalize("NFKD", ·)` step is the parameter `nfkd`; the
`encode("ascii", "ignore")` step concretely drops all non-ASCII characters. -/
def pyNorm (nfkd : String → String) (s : String) : String :=
  if s = "" then ""
  else
    let l := ((nfkd s).toList.filter (fun c => c.val < 128))
    let l := stripWs (l.map Char.toLower)
    let l := l.map flatFix
    let l := replacePlusPlus l
    let l := l.map (fun c =>
      if pyWordChar c || isPyWs c || c == '#' || c == '+' then c else ' ')
    let l := wsRunsTo ' ' l
    let l := sharpExpand l
    let l := wsRunsTo '-' l
    String.mk (stripChar '-' l)

/-- Embedding of `make_id` from build_master_list_local_pldb.py.  `sha1hex`
abstracts `hashlib.sha1(...).hexdigest()`; `[:8]` is `String.take 8`. -/
def make_id (nfkd sha1hex : String → String) (name : String) : String :=
  let nid := pyNorm nfkd name
  if nid = "" then "id-" ++ (sha1hex name).take 8 else nid

/-- Single-character typographic replacements performed by `normalize_token`
in augment_with_pygments.py / augment_with_rosettacode.py (en/em dash to
hyphen, curly quotes to ASCII quotes). -/
def typoFix (c : Char) : Char :=
  if c == '–' then '-'
  else if c == '—' then '-'
  else if c == '’' then '\''
  else if c == '“' then '"'
  else if c == '”' then '"'
  else c

/-- Embedding of `normalize_token` (identical in augment_with_pygments.py and
augment_with_rosettacode.py): strip, typographic fixes, collapse whitespace
runs to a single space. -/
def normalize_token (s : String) : String :=
  String.mk (wsRunsTo ' ' ((stripWs s.toList).map typoFix))

/-- Characters kept by `normalize_key`'s regex `[^a-z0-9+#.\- ]+` deletion. -/
def keyChar (c : Char) : Bool :=
  ('a' ≤ c && c ≤ 'z') || ('0' ≤ c && c ≤ '9') ||
    c == '+' || c == '#' || c == '.' || c == '-' || c == ' '

/-- Embedding of `normalize_key` (identical in augment_with_pygments.py and
augment_with_rosettacode.py): lowercase the normalized token, delete every
character outside `[a-z0-9+#.\- ]`, strip surrounding whitespace. -/
def normalize_key (s : String) : String :=
  String.mk (stripWs (((normalize_token s).toList.map Char.toLower).filter keyChar))

/-- The non-space, already-lowercase characters kept by `normalize_key`;
used to state which inputs `normalize_key` leaves unchanged. -/
def plainKeyChars : List Char :=
  "abcdefghijklmnopqrstuvwxyz0123456789+#.-".toList

/-! Data model: a pandas cell holds a Python value — a string, a bool, an
integer, or NaN (missing).  The merge policies of the Record Aggregator branch
on the dynamic type exactly as the Python code does with isinstance. -/

/-- One cell of the catalog DataFrame. -/
inductive Cell where
  | s (v : String)
  | b (v : Bool)
  | i (v : Int)
  | na
deriving DecidableEq, Repr

/-- Python truthiness test `not x.strip()` for strings: true when the string
is empty or all-whitespace. -/
def strBlank (v : String) : Bool :=
  v.toList.all isPyWs

/-- Python `str(x)` on the cell values that occur in the pipeline
(`astype(str)` after `dropna()`). -/
def cellToStr : Cell → String
  | .s v => v
  | .b true => "True"
  | .b false => "False"
  | .i v => toString v
  | .na => "nan"

/-- Split a character list at every character satisfying `p`, keeping empty
pieces (Python `str.split(";")` semantics: splitting the empty string yields
one empty piece). -/
def splitOnP (p : Char → Bool) : List Char → List (List Char)
  | [] => [[]]
  | c :: cs =>
    if p c then [] :: splitOnP p cs
    else
      match splitOnP p cs with
      | [] => [[c]]
      | t :: ts => (c :: t) :: ts

/-- Python `sep.join(...)` at the character-list level. -/
def joinChar (sep : Char) : List (List Char) → List Char
  | [] => []
  | [x] => x
  | x :: xs => x ++ sep :: joinChar sep xs

/-- Python `sorted(set(xs))` for a list of strings (as character lists):
deduplicate, then sort ascending by code points. -/
def pySortedSet (l : List (List Char)) : List (List Char) :=
  List.insertionSort (· ≤ ·) l.dedup

/-- Python `x or ""` on a string (the identity: the only falsy string is ""). -/
def pyOrEmpty (s : String) : String :=
  if s = "" then "" else s

/-- Cells kept by `merge_first`'s comprehension
`[x for x in col if (isinstance(x, str) and x.strip()) or isinstance(x, bool)]`. -/
def mfKeep : Cell → Bool
  | .s v => !strBlank v
  | .b _ => true
  | _ => false

/-- The test of `merge_first`'s first loop: a non-blank string. -/
def mfStr : Cell → Bool
  | .s v => !strBlank v
  | _ => false

/-- The test of `merge_first`'s second loop: any boolean. -/
def isBoolCell : Cell → Bool
  | .b _ => true
  | _ => false

/-- Embedding of `merge_flags` from build_master_list_local_pldb.py:
`";".join(sorted(set(";".join(col.dropna().astype(str)).split(";")))) or ""`. -/
def merge_flags (col : List Cell) : Cell :=
  let vals := (col.filter (fun x => x ≠ Cell.na)).map cellToStr
  let pieces := splitOnP (· == ';') (joinChar ';' (vals.map String.toList))
  Cell.s (pyOrEmpty (String.mk (joinChar ';' (pySortedSet pieces))))

/-- Embedding of `merge_first` from build_master_list_local_pldb.py: prefer
the first non-blank string, then the first boolean (true or false), then "". -/
def merge_first (col : List Cell) : Cell :=
  let vals := col.filter mfKeep
  match vals.find? mfStr with
  | some v => v
  | none =>
    match vals.find? isBoolCell with
    | some v => v
    | none => .s ""

/-- Embedding of `merge_space` from build_master_list_local_pldb.py:
`" ".join(sorted(set(" ".join(vals).split()))) if vals else ""` where `vals`
keeps the non-blank strings.  The no-argument `str.split()` drops empty
pieces. -/
def merge_space (col : List Cell) : Cell :=
  let vals := col.filterMap fun x =>
    match x with
    | .s v => if strBlank v then none else some v
    | _ => none
  if vals = [] then Cell.s ""
  else
    let toks := (splitOnP isPyWs (joinChar ' ' (vals.map String.toList))).filter (· ≠ [])
    Cell.s (String.mk (joinChar ' ' (pySortedSet toks)))

/-- Python `sorted(set(xs))` for a list of strings.  The comparison is done on
the underlying character lists (the same code-point order Python uses). -/
def pySortedSetStr (l : List String) : List String :=
  (pySortedSet (l.map String.toList)).map String.mk

/-! DataFrame model: a row is an association list from column names to cells;
a DataFrame is a list of rows.  Column names are unique within a row. -/

/-- One DataFrame row. -/
abbrev Row := List (String × Cell)

/-- Read a cell (missing columns read as NaN, as in pandas row access used
with `.get`). -/
def getCell (row : Row) (c : String) : Cell :=
  ((row.find? (fun kv => kv.1 = c)).map Prod.snd).getD Cell.na

/-- Write a cell, replacing the existing column or appending a new one
(pandas `df.at[i, col] = v` / new-column assignment). -/
def setCell : Row → String → Cell → Row
  | [], c, v => [(c, v)]
  | (k, w) :: rest, c, v =>
    if k = c then (c, v) :: rest else (k, w) :: setCell rest c v

/-- The string content of a cell, with NaN reading as "" (models the
`fillna("")` / `na=False` conventions used by the build script). -/
def cellStr : Cell → String
  | .s v => v
  | _ => ""

/-- Python `bool(x)` truthiness of a cell value; note `bool(float("nan"))` is
True in Python. -/
def pyTruthy : Cell → Bool
  | .s v => v ≠ ""
  | .b bv => bv
  | .i n => n ≠ 0
  | .na => true

/-- `astype(bool)` after `fillna(False)`: NaN reads as False. -/
def cellBoolFillFalse : Cell → Bool
  | .na => false
  | c => pyTruthy c

/-- The aggregation `lambda c: any(c)` used for the derived boolean columns. -/
def pyAny (col : List Cell) : Cell :=
  Cell.b (col.any pyTruthy)

/-- The aggregation `"max"` used for `source_count` (an integer column). -/
def pyMaxInt (col : List Cell) : Cell :=
  match col.filterMap (fun x => match x with | Cell.i n => some n | _ => none) with
  | [] => Cell.na
  | n :: ns => Cell.i (ns.foldl max n)

/-- Column order of the `agg` dict in build_master_list_local_pldb.py. -/
def AGG_COLUMNS : List String :=
  ["canonical_name", "source_flags", "types", "extensions", "first_appeared",
   "homepage", "paradigms", "typing", "designed_by", "influenced_by",
   "hello_world", "linguist_key", "evidence_urls", "notes",
   "in_pldb", "in_linguist", "in_wikipedia", "in_esolang",
   "has_extensions", "has_paradigm", "has_typing", "has_hello_world",
   "source_count"]

/-- The per-column merge policy of the `agg` dict. -/
def aggFun (c : String) (col : List Cell) : Cell :=
  if c = "source_flags" ∨ c = "evidence_urls" then merge_flags col
  else if c = "extensions" then merge_space col
  else if c = "in_pldb" ∨ c = "in_linguist" ∨ c = "in_wikipedia" ∨ c = "in_esolang" ∨
      c = "has_extensions" ∨ c = "has_paradigm" ∨ c = "has_typing" ∨
      c = "has_hello_world" then pyAny col
  else if c = "source_count" then pyMaxInt col
  else merge_first col

/-- The grouping key: the string in the `lang_id` column. -/
def langIdOf (row : Row) : String :=
  cellStr (getCell row "lang_id")

/-- Embedding of `df.groupby("lang_id", as_index=False).agg(agg)`: group keys
are sorted ascending (pandas `sort=True` default), each group keeps the
original row order, and only the columns of the `agg` dict survive. -/
def groupbyAgg (rows : List Row) : List Row :=
  (pySortedSetStr (rows.map langIdOf)).map fun k =>
    ("lang_id", Cell.s k) ::
      AGG_COLUMNS.map fun c =>
        (c, aggFun c ((rows.filter (fun r => langIdOf r = k)).map (fun r => getCell r c)))

/-! Row builders for the source adapters (the `rows.append({...})` dicts in
`main`).  Esolang is off by default and omitted. -/

/-- Metadata of one Linguist `languages.yml` entry as used by `main`. -/
structure LingMeta where
  extensions : List String
  aliases : List String

/-- One parsed PLDB record (the dict returned by `parse_pldb_file`). -/
structure PldbRec where
  name : String
  aliases : List String
  first_appeared : String
  homepage : String
  paradigms : String
  typing : String
  designed_by : String
  influenced_by : String
  hello_world : Bool
  extensions : String

/-- One alias record (`{"alias": ..., "lang_id": ..., "source": ...}`); the
alias string field is named `aliasStr` because `alias` is reserved in Lean. -/
structure AliasRow where
  aliasStr : String
  lang_id : String
  source : String
deriving DecidableEq

/-- The Linguist row dict of `main` (lines 491-509).  Note the extensions list
is joined as-is: no normalization is applied to Linguist extension tokens. -/
def linguistRow (nfkd sha1hex : String → String) (name : String) (meta : LingMeta) : Row :=
  [("lang_id", Cell.s (make_id nfkd sha1hex name)),
   ("canonical_name", Cell.s name),
   ("source_flags", Cell.s "linguist"),
   ("types", Cell.s ""),
   ("extensions", Cell.s (String.mk (joinChar ' ' (meta.extensions.map String.toList)))),
   ("first_appeared", Cell.s ""),
   ("homepage", Cell.s ""),
   ("paradigms", Cell.s ""),
   ("typing", Cell.s ""),
   ("designed_by", Cell.s ""),
   ("influenced_by", Cell.s ""),
   ("hello_world", Cell.b false),
   ("linguist_key", Cell.s name),
   ("evidence_urls", Cell.s "https://github.com/github-linguist/linguist/blob/main/lib/linguist/languages.yml"),
   ("notes", Cell.s "")]

/-- The Wikipedia row dict of `main` (lines 517-535). -/
def wikipediaRow (nfkd sha1hex : String → String) (t : String) : Row :=
  [("lang_id", Cell.s (make_id nfkd sha1hex t)),
   ("canonical_name", Cell.s t),
   ("source_flags", Cell.s "wikipedia"),
   ("types", Cell.s ""),
   ("extensions", Cell.s ""),
   ("first_appeared", Cell.s ""),
   ("homepage", Cell.s ""),
   ("paradigms", Cell.s ""),
   ("typing", Cell.s ""),
   ("designed_by", Cell.s ""),
   ("influenced_by", Cell.s ""),
   ("hello_world", Cell.b false),
   ("linguist_key", Cell.s ""),
   ("evidence_urls", Cell.s "https://en.wikipedia.org/wiki/List_of_programming_languages"),
   ("notes", Cell.s "")]

/-- The PLDB row dict of `main` (lines 567-586). -/
def pldbRow (nfkd sha1hex : String → String) (r : PldbRec) : Row :=
  [("lang_id", Cell.s (make_id nfkd sha1hex r.name)),
   ("canonical_name", Cell.s r.name),
   ("source_flags", Cell.s "pldb"),
   ("types", Cell.s ""),
   ("extensions", Cell.s r.extensions),
   ("first_appeared", Cell.s r.first_appeared),
   ("homepage", Cell.s r.homepage),
   ("paradigms", Cell.s r.paradigms),
   ("typing", Cell.s r.typing),
   ("designed_by", Cell.s r.designed_by),
   ("influenced_by", Cell.s r.influenced_by),
   ("hello_world", Cell.b r.hello_world),
   ("linguist_key", Cell.s ""),
   ("evidence_urls", Cell.s "https://github.com/breck7/pldb"),
   ("notes", Cell.s "")]

/-- All raw rows, in the order `main` appends them (Linguist, Wikipedia,
PLDB; Esolang disabled), together with the alias rows collected along the
way. -/
def buildRows (nfkd sha1hex : String → String) (ling : List (String × LingMeta))
    (wiki : List String) (pldb : List PldbRec) : List Row × List AliasRow :=
  let lingRows := ling.map fun nm => linguistRow nfkd sha1hex nm.1 nm.2
  let lingAliases := ling.flatMap fun nm =>
    nm.2.aliases.map fun a =>
      AliasRow.mk a (make_id nfkd sha1hex nm.1) "linguist"
  let wikiRows := wiki.map (wikipediaRow nfkd sha1hex)
  let pldbRows := pldb.map (pldbRow nfkd sha1hex)
  let pldbAliases := pldb.flatMap fun r =>
    r.aliases.map fun a => AliasRow.mk a (make_id nfkd sha1hex r.name) "pldb"
  (lingRows ++ wikiRows ++ pldbRows, lingAliases ++ pldbAliases)

/-! Enrichment from Linguist (`enrich_extensions_from_linguist`). -/

/-- Does `needle` start `hay`? -/
def startsWithList : List Char → List Char → Bool
  | [], _ => true
  | _ :: _, [] => false
  | n :: ns, h :: hs => n == h && startsWithList ns hs

/-- Substring test (Python `needle in hay` / plain-text `str.contains`). -/
def containsList (needle : List Char) : List Char → Bool
  | [] => needle.isEmpty
  | c :: cs => startsWithList needle (c :: cs) || containsList needle cs

/-- Python `needle in hay` on strings. -/
def strContains (hay needle : String) : Bool :=
  containsList needle.toList hay.toList

/-- Last-wins association update (Python dict assignment). -/
def strAssocSet : List (String × String) → String → String → List (String × String)
  | [], k, v => [(k, v)]
  | (k', v') :: rest, k, v =>
    if k' = k then (k, v) :: rest else (k', v') :: strAssocSet rest k v

/-- `_merge_ext`: union of the whitespace tokens of both strings, minus the
empty token, sorted and space-joined. -/
def merge_ext (existing extra : String) : String :=
  let a := (splitOnP isPyWs existing.toList).filter (· ≠ [])
  let b := (splitOnP isPyWs extra.toList).filter (· ≠ [])
  String.mk (joinChar ' ' ((pySortedSet (a ++ b)).filter (· ≠ [])))

/-- Add "linguist" to a semicolon-joined flag set:
`";".join(sorted(x for x in flags if x))` after `flags.add("linguist")`. -/
def addLinguistFlag (flags : String) : String :=
  String.mk (joinChar ';'
    ((pySortedSet (splitOnP (· == ';') flags.toList ++ ["linguist".toList])).filter (· ≠ [])))

/-- Embedding of `enrich_extensions_from_linguist`.  `df_l` is the set of rows
whose `source_flags` contains the substring "linguist"; `key_to_ext`,
`name_to_key` and `id_to_key` are dicts built over `df_l` in row order with
later rows overwriting earlier ones; the two hit-masks and the flag-marking
pass are applied row-wise. -/
def enrich (rows : List Row) : List Row :=
  let dfl := rows.filter fun r => strContains (cellStr (getCell r "source_flags")) "linguist"
  let key_to_ext := dfl.foldl (fun m r =>
    strAssocSet m (cellStr (getCell r "linguist_key")) (cellStr (getCell r "extensions"))) []
  let name_to_key := dfl.foldl (fun m r =>
    strAssocSet m (cellStr (getCell r "canonical_name")) (cellStr (getCell r "linguist_key"))) []
  let id_to_key := dfl.foldl (fun m r =>
    strAssocSet m (langIdOf r) (cellStr (getCell r "linguist_key"))) []
  let linguist_names := dfl.map fun r => cellStr (getCell r "canonical_name")
  let dfl_ids := dfl.map langIdOf
  rows.map fun r =>
    let r :=
      if linguist_names.contains (cellStr (getCell r "canonical_name")) then
        let k := ((name_to_key.lookup (cellStr (getCell r "canonical_name"))).getD "")
        let r := setCell r "linguist_key" (Cell.s k)
        setCell r "extensions"
          (Cell.s (merge_ext (cellStr (getCell r "extensions")) ((key_to_ext.lookup k).getD "")))
      else r
    let r :=
      if dfl_ids.contains (langIdOf r) then
        let k := ((id_to_key.lookup (langIdOf r)).getD "")
        let r := setCell r "linguist_key" (Cell.s k)
        setCell r "extensions"
          (Cell.s (merge_ext (cellStr (getCell r "extensions")) ((key_to_ext.lookup k).getD "")))
      else r
    if cellStr (getCell r "linguist_key") ≠ "" then
      setCell r "source_flags" (Cell.s (addLinguistFlag (cellStr (getCell r "source_flags"))))
    else r

/-- Maximal word-character runs of a string; the regex `\btag\b` matches a
string of word characters exactly when it is one of these runs. -/
def wordRuns (s : String) : List (List Char) :=
  (splitOnP (fun c => !pyWordChar c) s.toList).filter (· ≠ [])

/-- `series.str.contains(r"\btag\b")` for a word-only tag. -/
def wordContains (tag s : String) : Bool :=
  (wordRuns s).contains tag.toList

/-- The derived boolean/count columns of `main` (lines 595-609). -/
def addDerived (rows : List Row) : List Row :=
  rows.map fun r =>
    let flags := cellStr (getCell r "source_flags")
    let r := setCell r "in_pldb" (Cell.b (wordContains "pldb" flags))
    let r := setCell r "in_linguist" (Cell.b (wordContains "linguist" flags))
    let r := setCell r "in_wikipedia" (Cell.b (wordContains "wikipedia" flags))
    let r := setCell r "in_esolang" (Cell.b (wordContains "esolang" flags))
    let r := setCell r "has_extensions" (Cell.b (cellStr (getCell r "extensions") ≠ ""))
    let r := setCell r "has_paradigm" (Cell.b (cellStr (getCell r "paradigms") ≠ ""))
    let r := setCell r "has_typing" (Cell.b (cellStr (getCell r "typing") ≠ ""))
    let r := setCell r "has_hello_world" (Cell.b (cellBoolFillFalse (getCell r "hello_world")))
    setCell r "source_count"
      (Cell.i ((splitOnP (· == ';') flags.toList).filter (fun x => stripWs x ≠ [])).length)

/-- Recompute `alias_count` per row: the number of (deduplicated) alias rows
pointing at the row's identifier, with 0 for rows that have none
(`merge ... how="left"` + `fillna(0)` + `astype(int)`). -/
def addAliasCounts (dfm : List Row) (ali : List AliasRow) : List Row :=
  dfm.map fun r =>
    setCell r "alias_count" (Cell.i ((ali.filter (fun ar => ar.lang_id = langIdOf r)).length))

/-! Fuzzy collapse (`main`, lines 681-717). -/

/-- One DP row step of the InDel (insert/delete only) edit distance:
entries come as (b-char, diagonal value, above value). -/
def indelGo (c : Char) : List (Char × Nat × Nat) → Nat → List Nat
  | [], _ => []
  | (bj, pDiag, pUp) :: rest, left =>
    let v := if c = bj then pDiag else 1 + min pUp left
    v :: indelGo c rest v

/-- InDel edit distance (insertions and deletions only; a substitution costs
2), the distance underlying rapidfuzz's `fuzz.ratio`. -/
def indelDist (as bs : List Char) : Nat :=
  (as.foldl (fun prev c =>
      let left := prev.headD 0 + 1
      left :: indelGo c (bs.zip (prev.zip prev.tail)) left)
    (List.range (bs.length + 1))).getLastD 0

/-- The test `fuzz.ratio(a, b) >= 94` computed exactly in the rationals:
`fuzz.ratio = 100 * (1 - indel/(|a|+|b|))`, so the test is
`94 * (|a|+|b|) <= 100 * (|a|+|b| - indel)`.  (For both strings empty the
ratio is 100 and the test holds, as in rapidfuzz.) -/
def ratioGe94 (a b : String) : Bool :=
  let t := a.length + b.length
  94 * t ≤ 100 * (t - indelDist a.toList b.toList)

/-- All ordered pairs (i < j) of a list, in the double-loop order of `main`. -/
def allOrderedPairs : List String → List (String × String)
  | [] => []
  | x :: xs => xs.map (fun y => (x, y)) ++ allOrderedPairs xs

/-- `len((dfm.loc[dfm.lang_id == a, "source_flags"].values or [""])[0].split(";"))`:
the number of semicolon pieces of the source flags of the first row whose
identifier is `a` (an empty split still counts one piece). -/
def flagsPieceCount (dfm : List Row) (a : String) : Nat :=
  (splitOnP (· == ';')
    (((dfm.find? (fun r => langIdOf r = a)).map
        (fun r => cellStr (getCell r "source_flags"))).getD "").toList).length

/-- The id_map built by the pairwise fuzzy loop: for each pair sharing a first
character with similarity ratio at least 94, the weaker-sourced identifier is
mapped to the stronger one (`sa >= sb` keeps the first).  Dict assignment is
modelled by prepending (latest assignment shadows older ones). -/
def buildIdMap (dfm : List Row) (ids : List String) : List (String × String) :=
  (allOrderedPairs ids).foldl (fun m ab =>
    if ab.1 = "" ∨ ab.2 = "" then m
    else if ab.1.toList.headD ' ' ≠ ab.2.toList.headD ' ' then m
    else if ratioGe94 ab.1 ab.2 then
      let sa := flagsPieceCount dfm ab.1
      let sb := flagsPieceCount dfm ab.2
      if sa ≥ sb then (ab.2, ab.1) :: m else (ab.1, ab.2) :: m
    else m) []

/-- Apply the id_map (identity outside its domain, as the dict is initialised
with `{i: i for i in ids}`). -/
def idMapApply (m : List (String × String)) (i : String) : String :=
  (m.lookup i).getD i

/-- The conservative fuzzy collapse: build the id_map over the nonempty
identifiers; if it moved anything (`set(id_map.values()) != set(ids)`), remap
identifiers, re-group and re-aggregate, re-point the alias rows and recompute
alias counts. -/
def collapseStep (dfm : List Row) (aliasRows : List AliasRow) : List Row :=
  let ids := (dfm.map langIdOf).filter (· ≠ "")
  let m := buildIdMap dfm ids
  if pySortedSetStr (ids.map (idMapApply m)) = pySortedSetStr ids then dfm
  else
    let dfm2 := dfm.map fun r => setCell r "lang_id" (Cell.s (idMapApply m (langIdOf r)))
    let dfm3 := groupbyAgg dfm2
    let alias2 := (aliasRows.map fun ar => { ar with lang_id := idMapApply m ar.lang_id }).dedup
    addAliasCounts dfm3 alias2

/-- The full pure pipeline of `main` after fetching: build rows, enrich from
Linguist, add derived columns, drop empty identifiers, group and aggregate,
add self-aliases and alias counts, then fuzzy-collapse. -/
def buildCatalog (nfkd sha1hex : String → String) (ling : List (String × LingMeta))
    (wiki : List String) (pldb : List PldbRec) : List Row :=
  let rowsAliases := buildRows nfkd sha1hex ling wiki pldb
  let df := addDerived (enrich rowsAliases.1)
  let df := df.filter fun r => (langIdOf r).length > 0
  let dfm := groupbyAgg df
  let alias2 := (rowsAliases.2 ++
    ((dfm.filter (fun r => langIdOf r ≠ "")).map fun r =>
      AliasRow.mk (cellStr (getCell r "canonical_name")) (langIdOf r) "self")).dedup
  let dfm := addAliasCounts dfm alias2
  collapseStep dfm alias2

/-! PLDB extension-token normalization (`_norm_ext_token`,
`_collect_pldb_extensions`). -/

/-- The characters kept by `_norm_ext_token`'s regex `[^.\w+-]` deletion. -/
def extKeepChar (c : Char) : Bool :=
  c == '.' || pyWordChar c || c == '+' || c == '-'

/-- Embedding of `_norm_ext_token`: strip, drop leading stars, ensure a
leading dot, lowercase, delete characters outside `[.\w+-]`. -/
def normExtToken (tok : String) : String :=
  if tok = "" then ""
  else
    let t := stripWs tok.toList
    let t := t.dropWhile (· == '*')
    let t := if t.headD ' ' = '.' then t else '.' :: t
    String.mk ((t.map Char.toLower).filter extKeepChar)

/-- Embedding of `_collect_pldb_extensions`: gather the extension-bearing
property values, split them on whitespace/comma/semicolon/slash, normalize
each part, keep tokens longer than one character, and return the sorted set.
(Python's `re.split(r"[\s,;/]+", ·)` collapses separator runs where this
split keeps empty parts; those normalize to "" and are dropped by the length
filter either way.) -/
def collectPldbExtensions (props : List (String × List String)) : List String :=
  let keys := ["clocextensions", "cloc extensions", "cloc-ext", "cloc_ext",
               "filename extension", "file extension", "file extensions", "extensions"]
  let parts := keys.flatMap fun k =>
    ((props.lookup k).getD []).flatMap fun val =>
      (splitOnP (fun c => isPyWs c || c == ',' || c == ';' || c == '/') val.toList).map String.mk
  pySortedSetStr ((parts.map normExtToken).filter (fun e => 1 < e.length))

/-! Pygments external-taxonomy linker (augment_with_pygments.py). -/

/-- Lowercase a string (Python `str.lower()`, ASCII range). -/
def pyLower (s : String) : String :=
  String.mk (s.toList.map Char.toLower)

/-- The literal `builtin_alias_table()` dict of augment_with_pygments.py. -/
def builtin_alias_table : List (String × String) :=
  [("c sharp", "csharp"), ("c-sharp", "csharp"), ("c#", "csharp"),
   ("f sharp", "fsharp"), ("f-sharp", "fsharp"), ("f#", "fsharp"),
   ("c plus plus", "cpp"), ("cplusplus", "cpp"), ("c++", "cpp"), ("cpp", "cpp"),
   ("objective c", "objective-c"), ("objective-c", "objective-c"), ("obj-c", "objective-c"),
   ("objective c++", "objective-c++"), ("objective-c++", "objective-c++"),
   ("obj-c++", "objective-c++"),
   ("golang", "go"),
   ("js", "javascript"), ("ts", "typescript"),
   ("vb.net", "vbnet"), ("vb", "vbnet"), ("visual basic", "vbnet"),
   ("ocaml", "ocaml"), ("objective caml", "ocaml"),
   ("shell", "bash"), ("shell script", "bash"), ("unix shell", "bash"),
   ("wolfram language", "mathematica"), ("wolfram", "mathematica"),
   ("rstats", "r"),
   ("yaml", "yaml"), ("yml", "yaml"),
   ("jsonc", "json"), ("json5", "json"),
   ("pl/sql", "plsql"), ("pl-sql", "plsql"), ("plpgsql", "postgresql"),
   ("powershell", "powershell"),
   ("vim script", "viml"), ("vimscript", "viml")]

/-- `pick_master_name`'s per-column test: the column is present, non-NaN and
stringifies to a non-blank string; returns that string. -/
def colOkStr (row : Row) (c : String) : Option String :=
  match row.find? (fun kv => kv.1 = c) with
  | some kv =>
    if kv.2 ≠ Cell.na ∧ strBlank (cellToStr kv.2) = false then some (cellToStr kv.2) else none
  | none => none

/-- Embedding of `pick_master_name`: prefer `hyperpolyglot_name`, then the
first usable candidate column, then "". -/
def pick_master_name (row : Row) (candidates : List String) : String :=
  match colOkStr row "hyperpolyglot_name" with
  | some v => v
  | none =>
    match candidates.findSome? (colOkStr row) with
    | some v => v
    | none => ""

/-- Embedding of `split_ext_tokens`: split on commas/whitespace/semicolons/
pipes, drop empties, rewrite a leading `*.` to `.`. -/
def split_ext_tokens (val : String) : List String :=
  (splitOnP (fun c => c == ',' || isPyWs c || c == ';' || c == '|') (stripWs val.toList)).filterMap
    fun t =>
      match t with
      | [] => none
      | '*' :: '.' :: rest => some (String.mk ('.' :: rest))
      | _ => some (String.mk t)

/-- Embedding of `gather_row_ext_tokens`: tokens of the declared extension
columns, lowercased. -/
def gather_row_ext_tokens (row : Row) (extcols : List String) : List String :=
  extcols.flatMap fun col =>
    match row.find? (fun kv => kv.1 = col) with
    | some kv =>
      if kv.2 ≠ Cell.na then (split_ext_tokens (cellToStr kv.2)).map pyLower else []
    | none => []

/-- First-occurrence de-duplication preserving order (the seen-set loop of
`autodetect_extcols`). -/
def dedupFirstAux (seen : List String) : List String → List String
  | [] => []
  | x :: xs =>
    if seen.contains x then dedupFirstAux seen xs
    else x :: dedupFirstAux (x :: seen) xs

/-- Embedding of `autodetect_extcols`: the columns whose lowercased name
contains "ext", "file", "pattern" or "filename", in order, de-duplicated.
By construction this is a pure function of the schema (the column names). -/
def autodetect_extcols (columns : List String) : List String :=
  dedupFirstAux []
    (columns.filter fun c =>
      ["ext", "file", "pattern", "filename"].any fun k => strContains (pyLower c) k)

/-- A filename-tier candidate: `(len(tok), tok, disp)` with the strings as
character lists (compared, as Python does, by code points). -/
abbrev Cand := Nat × List Char × List Char

/-- Python tuple `<=` on candidates (lexicographic). -/
def candLe (x y : Cand) : Prop :=
  x.1 < y.1 ∨ (x.1 = y.1 ∧ (x.2.1 < y.2.1 ∨ (x.2.1 = y.2.1 ∧ x.2.2 ≤ y.2.2)))

instance candLeDec : DecidableRel candLe := fun x y => by
  unfold candLe
  exact inferInstance

instance candGeDec : DecidableRel (fun a b : Cand => candLe b a) :=
  fun a b => candLeDec b a

/-- `candidates.sort(reverse=True)`: stable descending sort. -/
def pySortDescCand (l : List Cand) : List Cand :=
  List.insertionSort (fun a b => candLe b a) l

/-- The candidate list of the filename/extension heuristic of
`match_to_pygments`. -/
def pygCandidates (toks : List String) (fnameIndex : List (String × List String)) : List Cand :=
  toks.flatMap fun tok =>
    match fnameIndex.lookup tok with
    | some disps => disps.map fun disp => (tok.length, tok.toList, disp.toList)
    | none => []

/-- Embedding of `match_to_pygments`: name tier (direct normalized lookup,
then builtin-alias translation), then the strict filename/extension tier
(sort the matching `(len, tok, disp)` triples descending, take the first). -/
def match_to_pygments (name : String) (rowExtTokens : List String)
    (aliasIndex : List (String × String)) (fnameIndex : List (String × List String))
    (builtinAliases : List (String × String)) : Option String :=
  let key := normalize_key name
  match aliasIndex.lookup key with
  | some d => some d
  | none =>
    match
      (match builtinAliases.lookup key with
       | some alt' => aliasIndex.lookup (normalize_key alt')
       | none => none) with
    | some d => some d
    | none =>
      match pySortDescCand (pygCandidates rowExtTokens fnameIndex) with
      | [] => none
      | c :: _ => some (String.mk c.2.2)

/-- The match loop of the Pygments linker's `main`: one optional match per
catalog row. -/
def runPygmentsMatches (rows : List Row) (candidates : List String) (extcols : List String)
    (aliasIndex : List (String × String)) (fnameIndex : List (String × List String))
    (builtinAliases : List (String × String)) : List (Option String) :=
  rows.map fun row =>
    match_to_pygments (pick_master_name row candidates) (gather_row_ext_tokens row extcols)
      aliasIndex fnameIndex builtinAliases

/-- The Pygments-only missing-report: `sorted(pyg_all - matched)`. -/
def pygmentsMissing (lexNames : List String) (ms : List (Option String)) : List String :=
  pySortedSetStr (lexNames.filter fun n => !(ms.contains (some n)))

/-- Membership of a display name under a token in a filename index
(the contents of the Python set `fname_index[tok]`). -/
def fnameMem (fi : List (String × List String)) (tok disp : String) : Prop :=
  ∃ l, fi.lookup tok = some l ∧ disp ∈ l

/-! RosettaCode external-taxonomy linker (augment_with_rosettacode.py). -/

/-- The literal `alias_map()` dict of augment_with_rosettacode.py. -/
def rosetta_alias_map : List (String × String) :=
  [("c sharp", "c#"), ("c-sharp", "c#"), ("csharp", "c#"),
   ("f sharp", "f#"), ("f-sharp", "f#"), ("fsharp", "f#"),
   ("c plus plus", "c++"), ("cplusplus", "c++"), ("cpp", "c++"),
   ("objective c", "objective-c"), ("obj-c", "objective-c"),
   ("objective c++", "objective-c++"), ("obj-c++", "objective-c++"),
   ("golang", "go"),
   ("js", "javascript"), ("ts", "typescript"),
   ("vb.net", "visual basic .net"), ("vb", "visual basic .net"),
   ("visual basic", "visual basic .net"),
   ("ocaml", "ocaml"), ("objective caml", "ocaml"),
   ("vim script", "vim script"), ("vimscript", "vim script"),
   ("wolfram language", "mathematica"), ("wolfram", "mathematica"),
   ("rstats", "r"),
   ("yml", "yaml"),
   ("jsonc", "json"), ("json5", "json"),
   ("pl/sql", "plsql"), ("pl-sql", "plsql"),
   ("pl/pgsql", "plpgsql"),
   ("powershell", "powershell")]

/-- Embedding of `_tokenize_pieces`: the string itself, its pieces under each
of the separators `; , | / \` that occur in it, and its underscore/hyphen
pieces. -/
def tokenize_pieces (s : String) : List String :=
  [s] ++
  ([';', ',', '|', '/', '\\'].flatMap fun sep =>
    if s.toList.contains sep then
      (splitOnP (· == sep) s.toList).filterMap fun part =>
        let p := stripWs part
        if p = [] then none else some (String.mk p)
    else []) ++
  (if s.toList.contains '_' || s.toList.contains '-' then
    (splitOnP (fun c => c == '_' || c == '-') s.toList).filterMap fun part =>
      let p := stripWs part
      if p = [] then none else some (String.mk p)
  else [])

/-- Embedding of `_variants`: hyphen/space-collapsed variants of a key. -/
def variants (key : String) : List String :=
  [key,
   String.mk (key.toList.map fun c => if c == ' ' then '-' else c),
   String.mk (key.toList.map fun c => if c == '-' then ' ' else c),
   String.mk (key.toList.filter (fun c => !(c == ' '))),
   String.mk (key.toList.filter (fun c => !(c == '-')))]

/-- Python `dict.setdefault(k, v)`: insert only if the key is absent;
insertion order is preserved by appending. -/
def assocSetdefault (m : List (String × Nat)) (k : String) (v : Nat) : List (String × Nat) :=
  if (m.lookup k).isSome then m else m ++ [(k, v)]

/-- Embedding of `build_master_index_all_strings`: iterate every row (by
position) and EVERY column of the master catalog, tokenize every non-blank
string cell, and map every normalized variant (and alias-translated variant)
to the first row that produced it.  This is a full-row scan: no column is
excluded. -/
def build_master_index_all_strings (columns : List String) (rows : List Row) :
    List (String × Nat) :=
  rows.enum.foldl (fun idx ir =>
    columns.foldl (fun idx col =>
      let val := getCell ir.2 col
      if val = Cell.na then idx
      else if strBlank (cellToStr val) then idx
      else
        (tokenize_pieces (cellToStr val)).foldl (fun idx piece =>
          let key := normalize_key piece
          if key = "" then idx
          else
            let idx := (variants key).foldl (fun idx v => assocSetdefault idx v ir.1) idx
            match rosetta_alias_map.lookup key with
            | some ali => (variants ali).foldl (fun idx v => assocSetdefault idx v ir.1) idx
            | none => idx) idx) idx) []

/-- Embedding of `map_rosetta_to_master`.  `closeMatch` abstracts the
Python-stdlib `difflib.get_close_matches(ali, candidates, n=1, cutoff=0.92)`
primitive (it returns a member of `candidates` or nothing). -/
def map_rosetta_to_master (closeMatch : String → List String → Option String)
    (index : List (String × Nat)) (name : String) : Option Nat :=
  let key := normalize_key name
  match index.lookup key with
  | some r => some r
  | none =>
    let ali := (rosetta_alias_map.lookup key).getD key
    match (variants ali).findSome? (fun v => index.lookup v) with
    | some r => some r
    | none =>
      match closeMatch ali (index.map Prod.fst) with
      | some best => index.lookup best
      | none => none

/-- One RosettaCode foreign entry (a row of `rc_df`). -/
structure RcEntry where
  name : String
  url : String
  summary : String
  tasksCount : Int
deriving DecidableEq

/-- `t.split("Category:", 1)[1] if t.startswith("Category:") else t`. -/
def rcMainTitle (t : String) : String :=
  if startsWithList "Category:".toList t.toList then String.mk (t.toList.drop 9) else t

/-- The `rows` comprehension of the RosettaCode `main` building `rc_df`. -/
def buildRcEntries (catTitles : List String) (extracts : List (String × String))
    (counts : List (String × Int)) : List RcEntry :=
  catTitles.map fun ct =>
    let mt := rcMainTitle ct
    RcEntry.mk mt
      ("https://rosettacode.org/wiki/" ++
        String.mk (mt.toList.map fun c => if c == ' ' then '_' else c))
      ((extracts.lookup mt).getD "")
      ((counts.lookup ct).getD 0)

/-- `rc_df.sort_values("rosettacode_name")`: stable ascending sort by name. -/
def sortRcByName (es : List RcEntry) : List RcEntry :=
  List.insertionSort (fun a b => a.name.toList ≤ b.name.toList) es

/-- Ensure the five RosettaCode columns exist before the match loop
(lines 191-196 of augment_with_rosettacode.py). -/
def rcEnsureCols (master : List Row) : List Row :=
  master.map fun r =>
    let r := if (r.find? (fun kv => kv.1 = "in_rosettacode")).isSome then r
      else setCell r "in_rosettacode" (Cell.b false)
    let r := if (r.find? (fun kv => kv.1 = "rosettacode_name")).isSome then r
      else setCell r "rosettacode_name" Cell.na
    let r := if (r.find? (fun kv => kv.1 = "rosettacode_url")).isSome then r
      else setCell r "rosettacode_url" Cell.na
    let r := if (r.find? (fun kv => kv.1 = "rosettacode_summary")).isSome then r
      else setCell r "rosettacode_summary" Cell.na
    if (r.find? (fun kv => kv.1 = "rosettacode_tasks_count")).isSome then r
    else setCell r "rosettacode_tasks_count" Cell.na

/-- The five `master.at[ridx, ...]` writes performed for a matched foreign
entry. -/
def rcUpdate (e : RcEntry) (r : Row) : Row :=
  setCell (setCell (setCell (setCell (setCell r
    "in_rosettacode" (Cell.b true))
    "rosettacode_name" (Cell.s e.name))
    "rosettacode_url" (Cell.s e.url))
    "rosettacode_summary" (Cell.s e.summary))
    "rosettacode_tasks_count" (Cell.i e.tasksCount)

/-- Replace the row at a position (pandas `.at[ridx, ·]` writes; positions
beyond the frame are unreachable in the source because `ridx` comes from the
index built over the same frame). -/
def setRowAt : List Row → Nat → (Row → Row) → List Row
  | [], _, _ => []
  | r :: rs, 0, f => f r :: rs
  | r :: rs, n + 1, f => r :: setRowAt rs n f

/-- The match-and-write loop over `rc_df.iterrows()` (in sorted order). -/
def applyRosettaMatches (master : List Row) (entries : List RcEntry)
    (matcher : String → Option Nat) : List Row :=
  entries.foldl (fun m e =>
    match matcher e.name with
    | none => m
    | some ridx => setRowAt m ridx (rcUpdate e)) master

/-- The linker's enrichment pass: ensure columns, then run the loop over the
entries sorted by `rosettacode_name`. -/
def rcLinkMain (master : List Row) (entries : List RcEntry)
    (matcher : String → Option Nat) : List Row :=
  applyRosettaMatches (rcEnsureCols master) (sortRcByName entries) matcher

end PLUltimate

namespace PLUltimate

/-! Helper lemmas. -/

/-- `dropWhile` is the identity on a list none of whose elements satisfy the
predicate. -/
theorem dropWhile_eq_self_of_all {p : Char → Bool} :
    ∀ {l : List Char}, (∀ c ∈ l, p c = false) → l.dropWhile p = l
  | [], _ => rfl
  | c :: cs, h => by
    have hc : p c = false := h c (List.mem_cons_self c cs)
    simp [List.dropWhile, hc]

/-- `stripWs` is the identity on a whitespace-free list. -/
theorem stripWs_eq_self {l : List Char} (h : ∀ c ∈ l, isPyWs c = false) :
    stripWs l = l := by
  unfold stripWs
  rw [dropWhile_eq_self_of_all h,
      dropWhile_eq_self_of_all (by intro c hc; exact h c (List.mem_reverse.mp hc)),
      List.reverse_reverse]

/-- Mapping a function that fixes every element of a list is the identity. -/
theorem map_eq_self_of {f : Char → Char} :
    ∀ {l : List Char}, (∀ c ∈ l, f c = c) → l.map f = l
  | [], _ => rfl
  | c :: cs, h => by
    simp only [List.map_cons]
    rw [h c (List.mem_cons_self c cs),
        map_eq_self_of (fun x hx => h x (List.mem_cons_of_mem c hx))]

/-- `wsRunsToAux` is the identity on a whitespace-free list. -/
theorem wsRunsToAux_eq_self {r : Char} :
    ∀ {b : Bool} {l : List Char}, (∀ c ∈ l, isPyWs c = false) → wsRunsToAux r b l = l
  | _, [], _ => rfl
  | b, c :: cs, h => by
    have hc : isPyWs c = false := h c (List.mem_cons_self c cs)
    have ht : wsRunsToAux r false cs = cs :=
      wsRunsToAux_eq_self (fun x hx => h x (List.mem_cons_of_mem c hx))
    simp [wsRunsToAux, hc, ht]

/-- Membership in the output of `stripWs` implies membership in the input. -/
theorem mem_of_mem_stripWs {c : Char} {l : List Char} (h : c ∈ stripWs l) : c ∈ l := by
  unfold stripWs at h
  rw [List.mem_reverse] at h
  have h1 := (List.dropWhile_sublist (l := (l.dropWhile isPyWs).reverse) isPyWs).mem h
  rw [List.mem_reverse] at h1
  exact (List.dropWhile_sublist isPyWs).mem h1

/-! Claim theorems for the Normalizer (C6, C7). -/

/-- C6: for every input name n — including names that normalize to the empty
string — make_identifier(n) returns a non-empty identifier, and calling it
twice on the same input yields the same identifier.  This holds for every
choice of the stdlib NFKD and SHA-1 primitives. -/
theorem make_id_nonempty_deterministic (nfkd sha1hex : String → String) (n : String) :
    make_id nfkd sha1hex n ≠ "" ∧ make_id nfkd sha1hex n = make_id nfkd sha1hex n := by
  refine ⟨?_, rfl⟩
  show (if pyNorm nfkd n = "" then "id-" ++ (sha1hex n).take 8 else pyNorm nfkd n) ≠ ""
  by_cases h : pyNorm nfkd n = ""
  · rw [if_pos h]
    intro hcontra
    have hlen : ("id-" ++ (sha1hex n).take 8).length = 0 := by rw [hcontra]; rfl
    rw [String.length_append] at hlen
    have h3 : ("id-" : String).length = 3 := rfl
    omega
  · rw [if_neg h]
    exact h

/-- Character facts for the 40 characters of `plainKeyChars`, checked by
computation. -/
theorem plainKeyChars_facts :
    ∀ c ∈ plainKeyChars,
      isPyWs c = false ∧ typoFix c = c ∧ Char.toLower c = c ∧ keyChar c = true := by
  decide

/-- C7 counterexample: the claim predicts that `.` survives normalization and
that `_` is removed, but the build script's `norm` does the opposite: on the
input "a_b.c" the underscore is preserved and the dot is not (it is replaced
by a space and then by a hyphen).  `nfkd` is instantiated with the identity,
which is what `unicodedata.normalize("NFKD", ·)` is on pure-ASCII input. -/
theorem norm_keeps_underscore_drops_dot_cex :
    pyNorm id "a_b.c" = "a_b-c" ∧
      '_' ∈ (pyNorm id "a_b.c").toList ∧ '.' ∉ (pyNorm id "a_b.c").toList := by
  decide

/-- C7 amended: the linker-side key function `normalize_key` (the only
normalizer whose kept-character set is letters, digits, `+`, `#`, `.`, `-`,
space) produces only characters from that set, and leaves unchanged every
string built solely from the lowercase non-space members of the set — in
particular `.` and `-` survive it; it performs no sharp/plus-plus replacement
and strips only surrounding whitespace.  The build script's `norm`, by
contrast, keeps `_` and turns `.`/`-` into separators (see the
counterexample). -/
theorem normalize_key_exact_charset :
    (∀ s : String, ∀ c ∈ (normalize_key s).toList, keyChar c = true) ∧
      (∀ l : List Char, (∀ c ∈ l, c ∈ plainKeyChars) →
        normalize_key (String.mk l) = String.mk l) := by
  constructor
  · intro s c hc
    have hc' : c ∈ (((normalize_token s).toList.map Char.toLower).filter keyChar) :=
      mem_of_mem_stripWs hc
    exact List.of_mem_filter hc'
  · intro l h
    have hws : ∀ c ∈ l, isPyWs c = false :=
      fun c hc => (plainKeyChars_facts c (h c hc)).1
    have htypo : ∀ c ∈ l, typoFix c = c :=
      fun c hc => (plainKeyChars_facts c (h c hc)).2.1
    have hlow : ∀ c ∈ l, Char.toLower c = c :=
      fun c hc => (plainKeyChars_facts c (h c hc)).2.2.1
    have hkey : ∀ c ∈ l, keyChar c = true :=
      fun c hc => (plainKeyChars_facts c (h c hc)).2.2.2
    have htok : normalize_token (String.mk l) = String.mk l := by
      unfold normalize_token
      rw [show (String.mk l).toList = l from rfl, stripWs_eq_self hws,
          map_eq_self_of htypo]
      unfold wsRunsTo
      rw [wsRunsToAux_eq_self hws]
    unfold normalize_key
    rw [htok, show (String.mk l).toList = l from rfl, map_eq_self_of hlow,
        List.filter_eq_self.mpr hkey, stripWs_eq_self hws]

/-- C7 amended witness: `normalize_key` leaves ".a-b" unchanged (dot and
hyphen survive), via the amended theorem at a concrete input. -/
theorem normalize_key_exact_charset_witness :
    normalize_key ".a-b" = ".a-b" := by
  have h := normalize_key_exact_charset.2 ['.', 'a', '-', 'b'] (by decide)
  rw [show String.mk ['.', 'a', '-', 'b'] = ".a-b" from by decide] at h
  exact h

/-! Lemmas about splitting, joining and sorted deduplication. -/

/-- Splitting never produces the empty list of pieces. -/
theorem splitOnP_ne_nil (p : Char → Bool) : ∀ l : List Char, splitOnP p l ≠ []
  | [] => by simp [splitOnP]
  | c :: cs => by
    simp only [splitOnP]
    split
    · exact List.cons_ne_nil _ _
    · split
      · exact List.cons_ne_nil _ _
      · exact List.cons_ne_nil _ _

/-- Splitting distributes over a separator occurrence. -/
theorem splitOnP_append (p : Char → Bool) {x : Char} (hx : p x = true) :
    ∀ (a b : List Char), splitOnP p (a ++ x :: b) = splitOnP p a ++ splitOnP p b
  | [], b => by simp [splitOnP, hx]
  | c :: cs, b => by
    have ih := splitOnP_append p hx cs b
    simp only [List.cons_append, splitOnP, List.append_eq, ih]
    split
    · rfl
    · cases hs : splitOnP p cs with
      | nil => exact absurd hs (splitOnP_ne_nil p cs)
      | cons t ts => simp [hs]

/-- Every piece produced by splitting is free of separator characters. -/
theorem splitOnP_pieces_sep_free (p : Char → Bool) :
    ∀ l : List Char, ∀ piece ∈ splitOnP p l, ∀ c ∈ piece, p c = false
  | [], piece, hp, c, hc => by
    simp [splitOnP] at hp
    subst hp
    exact absurd hc (List.not_mem_nil c)
  | d :: ds, piece, hp, c, hc => by
    by_cases hd : p d = true
    · simp only [splitOnP, if_pos hd] at hp
      rcases List.mem_cons.mp hp with h | h
      · subst h; exact absurd hc (List.not_mem_nil c)
      · exact splitOnP_pieces_sep_free p ds piece h c hc
    · simp only [splitOnP, if_neg hd] at hp
      cases hs : splitOnP p ds with
      | nil => exact absurd hs (splitOnP_ne_nil p ds)
      | cons t ts =>
        rw [hs] at hp
        rcases List.mem_cons.mp hp with h | h
        · subst h
          rcases List.mem_cons.mp hc with h' | h'
          · subst h'; exact Bool.not_eq_true _ ▸ (by simpa using hd)
          · exact splitOnP_pieces_sep_free p ds t (hs ▸ List.mem_cons_self t ts) c h'
        · exact splitOnP_pieces_sep_free p ds piece (hs ▸ List.mem_cons_of_mem t h) c hc

/-- Splitting a separator-free list yields that list as the single piece. -/
theorem splitOnP_eq_single (p : Char → Bool) :
    ∀ {l : List Char}, (∀ c ∈ l, p c = false) → splitOnP p l = [l]
  | [], _ => rfl
  | c :: cs, h => by
    have hc : p c = false := h c (List.mem_cons_self c cs)
    have ih := splitOnP_eq_single p (fun x hx => h x (List.mem_cons_of_mem c hx))
    simp only [splitOnP, hc, Bool.false_eq_true, if_false, ih]

/-- Splitting a separator-joined nonempty list of pieces gives the
concatenation of the splits of the pieces. -/
theorem splitOnP_joinChar (p : Char → Bool) {x : Char} (hx : p x = true) :
    ∀ (xs : List (List Char)), xs ≠ [] →
      splitOnP p (joinChar x xs) = xs.flatMap (splitOnP p)
  | [], h => absurd rfl h
  | [a], _ => by simp [joinChar]
  | a :: b :: bs, _ => by
    have ih := splitOnP_joinChar p hx (b :: bs) (List.cons_ne_nil b bs)
    simp only [joinChar, List.flatMap_cons]
    rw [splitOnP_append p hx, ih, List.flatMap_cons]

/-- Splitting after joining is the identity on nonempty lists of
separator-free pieces. -/
theorem splitOnP_joinChar_inv (p : Char → Bool) {x : Char} (hx : p x = true)
    {xs : List (List Char)} (hfree : ∀ piece ∈ xs, ∀ c ∈ piece, p c = false)
    (hne : xs ≠ []) : splitOnP p (joinChar x xs) = xs := by
  rw [splitOnP_joinChar p hx xs hne]
  clear hne
  induction xs with
  | nil => rfl
  | cons a as ih =>
    simp only [List.flatMap_cons]
    rw [splitOnP_eq_single p (hfree a (List.mem_cons_self a as)),
        ih (fun piece hp c hc => hfree piece (List.mem_cons_of_mem a hp) c hc)]
    rfl

/-- Python's `sorted(set(·))` depends only on the multiset of inputs. -/
theorem pySortedSet_perm {l₁ l₂ : List (List Char)} (h : l₁.Perm l₂) :
    pySortedSet l₁ = pySortedSet l₂ :=
  List.eq_of_perm_of_sorted
    ((List.perm_insertionSort _ _).trans (h.dedup.trans (List.perm_insertionSort _ _).symm))
    (List.sorted_insertionSort _ _) (List.sorted_insertionSort _ _)

/-- Membership in `pySortedSet` is membership in the input. -/
theorem mem_pySortedSet {a : List Char} {l : List (List Char)} :
    a ∈ pySortedSet l ↔ a ∈ l :=
  ((List.perm_insertionSort _ _).mem_iff).trans List.mem_dedup

/-! Claim theorems for the Record Aggregator merge policies (C8, C2). -/

/-- C8: processing the same multiset of contributing records in any order
yields the same merged union-token field (`merge_space`, used for
`extensions`) and the same merged union-set field (`merge_flags`, used for
`source_flags` and `evidence_urls`). -/
theorem union_merges_order_independent (c₁ c₂ : List Cell) (h : c₁.Perm c₂) :
    merge_flags c₁ = merge_flags c₂ ∧ merge_space c₁ = merge_space c₂ := by
  constructor
  · simp only [merge_flags]
    have hw : (((c₁.filter (fun x => x ≠ Cell.na)).map cellToStr).map String.toList).Perm
        (((c₂.filter (fun x => x ≠ Cell.na)).map cellToStr).map String.toList) :=
      ((h.filter _).map _).map _
    by_cases hnil : ((c₁.filter (fun x => x ≠ Cell.na)).map cellToStr).map String.toList = []
    · rw [hnil] at hw ⊢
      rw [hw.symm.eq_nil]
    · have hnil₂ : ((c₂.filter (fun x => x ≠ Cell.na)).map cellToStr).map String.toList ≠ [] :=
        fun h₂ => hnil (by rw [h₂] at hw; exact hw.eq_nil)
      rw [splitOnP_joinChar _ rfl _ hnil, splitOnP_joinChar _ rfl _ hnil₂,
          pySortedSet_perm (hw.flatMap_right _)]
  · simp only [merge_space]
    have hv : (c₁.filterMap fun x =>
        match x with
        | Cell.s v => if strBlank v then none else some v
        | _ => none).Perm (c₂.filterMap fun x =>
        match x with
        | Cell.s v => if strBlank v then none else some v
        | _ => none) := h.filterMap _
    by_cases hnil : (c₁.filterMap fun x =>
        match x with
        | Cell.s v => if strBlank v then none else some v
        | _ => none) = []
    · rw [hnil] at hv ⊢
      rw [hv.symm.eq_nil]
    · have hnil₂ : (c₂.filterMap fun x =>
          match x with
          | Cell.s v => if strBlank v then none else some v
          | _ => none) ≠ [] := fun h₂ => hnil (by rw [h₂] at hv; exact hv.eq_nil)
      have hw := (hv.map String.toList)
      have hmn : ((c₁.filterMap fun x =>
          match x with
          | Cell.s v => if strBlank v then none else some v
          | _ => none).map String.toList) ≠ [] := by
        simpa using hnil
      have hmn₂ : ((c₂.filterMap fun x =>
          match x with
          | Cell.s v => if strBlank v then none else some v
          | _ => none).map String.toList) ≠ [] := by
        simpa using hnil₂
      rw [if_neg hnil, if_neg hnil₂,
          splitOnP_joinChar _ rfl _ hmn, splitOnP_joinChar _ rfl _ hmn₂,
          pySortedSet_perm ((hw.flatMap_right _).filter _)]

/-- C8 witness: the union merges agree on a concrete pair of oppositely
ordered record groups, by the order-independence theorem at a concrete
permutation. -/
theorem union_merges_order_independent_witness :
    merge_flags [Cell.s "b;a", Cell.s "c"] = merge_flags [Cell.s "c", Cell.s "b;a"] ∧
      merge_space [Cell.s "b;a", Cell.s "c"] = merge_space [Cell.s "c", Cell.s "b;a"] :=
  union_merges_order_independent _ _ (List.Perm.swap (Cell.s "c") (Cell.s "b;a") [])

/-- Lowercasing never yields an ASCII uppercase letter. -/
theorem toLower_not_upper (c : Char) : (Char.toLower c).isUpper = false := by
  unfold Char.toLower
  by_cases h : Char.toNat c ≥ 65 ∧ Char.toNat c ≤ 90
  · rw [if_pos h]
    obtain ⟨h1, h2⟩ := h
    interval_cases hn : Char.toNat c <;> decide
  · rw [if_neg h]
    simp only [Char.isUpper]
    rw [Bool.and_eq_false_iff]
    rcases Decidable.not_and_iff_or_not.mp h with h' | h'
    · left
      simp only [decide_eq_false_iff_not]
      intro hle
      exact h' (UInt32.le_toNat_of_le (by decide) hle)
    · right
      simp only [decide_eq_false_iff_not]
      intro hle
      exact h' (UInt32.toNat_le_of_le (by decide) hle)

/-- With no non-blank string in the column, `merge_first`'s first loop finds
nothing. -/
theorem filter_mfKeep_find_str_none :
    ∀ {col : List Cell}, (∀ v : String, Cell.s v ∈ col → strBlank v = true) →
      (col.filter mfKeep).find? mfStr = none
  | [], _ => rfl
  | c :: cs, h => by
    have ih := filter_mfKeep_find_str_none (fun v hv => h v (List.mem_cons_of_mem c hv))
    cases c with
    | s v =>
      have hv : strBlank v = true := h v (List.mem_cons_self _ _)
      simp [List.filter_cons, mfKeep, hv, ih]
    | b bv => simp [List.filter_cons, mfKeep, List.find?, mfStr, ih]
    | i v => simp [List.filter_cons, mfKeep, ih]
    | na => simp [List.filter_cons, mfKeep, ih]

/-- The `mfKeep` filter drops no boolean, so the first boolean of the kept
cells is the first boolean of the column. -/
theorem filter_mfKeep_find_bool :
    ∀ col : List Cell, (col.filter mfKeep).find? isBoolCell = col.find? isBoolCell
  | [] => rfl
  | c :: cs => by
    have ih := filter_mfKeep_find_bool cs
    cases c with
    | s v =>
      cases hv : strBlank v <;>
        simp [List.filter_cons, mfKeep, hv, List.find?, isBoolCell, ih]
    | b bv => simp [List.filter_cons, mfKeep, List.find?, isBoolCell]
    | i v => simp [List.filter_cons, mfKeep, List.find?, isBoolCell, ih]
    | na => simp [List.filter_cons, mfKeep, List.find?, isBoolCell, ih]

/-- C2 amended: in a merge group whose string contributions are all blank
(the situation of every boolean field such as `hello_world`), the aggregated
value is the FIRST BOOLEAN of the group — whether true or false — and the
empty-string default when the group contributes no boolean.  It is not the
first boolean-true value: an earlier false shadows a later true. -/
theorem merge_first_takes_first_bool (col : List Cell)
    (h : ∀ v : String, Cell.s v ∈ col → strBlank v = true) :
    merge_first col = (col.find? isBoolCell).getD (Cell.s "") := by
  simp only [merge_first]
  rw [filter_mfKeep_find_str_none h, filter_mfKeep_find_bool]
  cases hf : col.find? isBoolCell <;> simp

/-- C2 amended witness: a group contributing false then true aggregates to
false, via the amended theorem at a concrete column. -/
theorem merge_first_takes_first_bool_witness :
    merge_first [Cell.b false, Cell.b true] = Cell.b false := by
  have h := merge_first_takes_first_bool [Cell.b false, Cell.b true]
    (by intro v hv; simp at hv)
  rw [h]
  decide

/-- C2 counterexample: a Record Aggregator merge group (two rows sharing
`lang_id` "x") in which the first record contributes `hello_world = False`
and the second contributes `hello_world = True` aggregates to False — the
claim predicts the first boolean-TRUE value, i.e. True. -/
theorem agg_hello_world_first_false_cex :
    (groupbyAgg
      [[("lang_id", Cell.s "x"), ("hello_world", Cell.b false)],
       [("lang_id", Cell.s "x"), ("hello_world", Cell.b true)]]).map
        (fun r => getCell r "hello_world") = [Cell.b false] := by
  decide

/-- Every character surviving the lowercase-then-filter stage of
`_norm_ext_token` is in the kept set and is not uppercase. -/
theorem mapLower_filter_facts (l : List Char) :
    ∀ c ∈ (l.map Char.toLower).filter extKeepChar, extKeepChar c = true ∧ c.isUpper = false := by
  intro c hc
  rw [List.mem_filter] at hc
  obtain ⟨hcm, hck⟩ := hc
  refine ⟨hck, ?_⟩
  rw [List.mem_map] at hcm
  obtain ⟨c0, _, rfl⟩ := hcm
  exact toLower_not_upper c0

/-- The dot-ensuring step of `_norm_ext_token` always yields a list whose
lowercase-filtered form starts with a dot. -/
theorem extToken_head_dot (t : List Char) :
    ∃ rest, (((if t.headD ' ' = '.' then t else '.' :: t).map Char.toLower).filter extKeepChar)
      = '.' :: rest := by
  by_cases hd : t.headD ' ' = '.'
  · rw [if_pos hd]
    cases t with
    | nil => simp at hd
    | cons c cs =>
      simp only [List.headD_cons] at hd
      subst hd
      rw [List.map_cons, show Char.toLower '.' = '.' from by decide, List.filter_cons,
          if_pos (show extKeepChar '.' = true from by decide)]
      exact ⟨_, rfl⟩
  · rw [if_neg hd, List.map_cons, show Char.toLower '.' = '.' from by decide, List.filter_cons,
        if_pos (show extKeepChar '.' = true from by decide)]
    exact ⟨_, rfl⟩

/-- C9 amended: every extension token contributed through the PLDB adapter's
`_collect_pldb_extensions` is validly formed — it starts with a dot, has at
least two characters, and consists solely of characters from `[.\w+-]` with
no uppercase letter.  (The catalog-wide claim fails because Linguist-supplied
tokens bypass this normalization; see the counterexample.) -/
theorem pldb_extension_tokens_wellformed (props : List (String × List String)) (e : String)
    (he : e ∈ collectPldbExtensions props) :
    e.toList.headD ' ' = '.' ∧ 1 < e.length ∧
      ∀ c ∈ e.toList, extKeepChar c = true ∧ c.isUpper = false := by
  simp only [collectPldbExtensions, pySortedSetStr] at he
  rw [List.mem_map] at he
  obtain ⟨lc, hlc, he⟩ := he
  rw [mem_pySortedSet, List.mem_map] at hlc
  obtain ⟨x, hx, rfl⟩ := hlc
  have hex : e = x := by rw [← he]; cases x; rfl
  subst hex
  rw [List.mem_filter] at hx
  obtain ⟨hxmem, hxlen⟩ := hx
  rw [List.mem_map] at hxmem
  obtain ⟨p, _, rfl⟩ := hxmem
  have hlen : 1 < (normExtToken p).length := of_decide_eq_true hxlen
  have hp0 : p ≠ "" := by
    intro hp
    subst hp
    simp [normExtToken] at hlen
  refine ⟨?_, hlen, ?_⟩
  · simp only [normExtToken, if_neg hp0]
    obtain ⟨rest, hrest⟩ := extToken_head_dot ((stripWs p.toList).dropWhile (· == '*'))
    rw [show (String.mk ((((if ((stripWs p.toList).dropWhile (· == '*')).headD ' ' = '.' then
          (stripWs p.toList).dropWhile (· == '*')
        else '.' :: (stripWs p.toList).dropWhile (· == '*')).map Char.toLower).filter
          extKeepChar))).toList
        = (((if ((stripWs p.toList).dropWhile (· == '*')).headD ' ' = '.' then
          (stripWs p.toList).dropWhile (· == '*')
        else '.' :: (stripWs p.toList).dropWhile (· == '*')).map Char.toLower).filter
          extKeepChar) from rfl, hrest]
    rfl
  · simp only [normExtToken, if_neg hp0]
    intro c hc
    exact mapLower_filter_facts _ c hc

/-- C9 amended witness: the property at a concrete PLDB property block
declaring extension "Py" (normalized to ".py"). -/
theorem pldb_extension_tokens_wellformed_witness :
    (".py").toList.headD ' ' = '.' ∧ 1 < (".py").length ∧
      ∀ c ∈ (".py").toList, extKeepChar c = true ∧ c.isUpper = false :=
  pldb_extension_tokens_wellformed [("extensions", ["Py"])] ".py" (by decide)

/-- C9 counterexample: a Linguist record declaring extension ".C" flows
through the whole build pipeline unnormalized: the resulting catalog row's
`extensions` field is the token ".C", which contains the uppercase letter
'C' and hence is not entirely lowercase as the claim requires. -/
theorem extensions_wellformed_cex :
    ((buildCatalog id (fun _ => "") [("Cpp2", LingMeta.mk [".C"] [])] [] []).map
        (fun r => cellStr (getCell r "extensions")) = [".C"]) ∧ 'C'.isUpper = true := by
  decide

/-! Order lemmas for the Python tuple comparison on filename-tier
candidates. -/

/-- `candLe` is reflexive. -/
theorem candLe_refl (a : Cand) : candLe a a :=
  Or.inr ⟨rfl, Or.inr ⟨rfl, le_refl _⟩⟩

/-- `candLe` is total. -/
theorem candLe_total (a b : Cand) : candLe a b ∨ candLe b a := by
  rcases lt_trichotomy a.1 b.1 with h | h | h
  · exact Or.inl (Or.inl h)
  · rcases lt_trichotomy a.2.1 b.2.1 with h2 | h2 | h2
    · exact Or.inl (Or.inr ⟨h, Or.inl h2⟩)
    · rcases le_total a.2.2 b.2.2 with h3 | h3
      · exact Or.inl (Or.inr ⟨h, Or.inr ⟨h2, h3⟩⟩)
      · exact Or.inr (Or.inr ⟨h.symm, Or.inr ⟨h2.symm, h3⟩⟩)
    · exact Or.inr (Or.inr ⟨h.symm, Or.inl h2⟩)
  · exact Or.inr (Or.inl h)

/-- `candLe` is transitive. -/
theorem candLe_trans {a b c : Cand} (hab : candLe a b) (hbc : candLe b c) : candLe a c := by
  rcases hab with h1 | ⟨e1, h1⟩
  · rcases hbc with h2 | ⟨e2, _⟩
    · exact Or.inl (lt_trans h1 h2)
    · exact Or.inl (e2 ▸ h1)
  · rcases hbc with h2 | ⟨e2, h2⟩
    · exact Or.inl (e1 ▸ h2)
    · refine Or.inr ⟨e1.trans e2, ?_⟩
      rcases h1 with h1' | ⟨f1, h1'⟩
      · rcases h2 with h2' | ⟨f2, _⟩
        · exact Or.inl (lt_trans h1' h2')
        · exact Or.inl (f2 ▸ h1')
      · rcases h2 with h2' | ⟨f2, h2'⟩
        · exact Or.inl (f1 ▸ h2')
        · exact Or.inr ⟨f1.trans f2, le_trans h1' h2'⟩

/-- `candLe` is antisymmetric. -/
theorem candLe_antisymm {a b : Cand} (hab : candLe a b) (hba : candLe b a) : a = b := by
  obtain ⟨a1, a2, a3⟩ := a
  obtain ⟨b1, b2, b3⟩ := b
  simp only [candLe] at hab hba
  rcases hab with h1 | ⟨e1, h1⟩ <;> rcases hba with h2 | ⟨e2, h2⟩
  · omega
  · omega
  · omega
  · subst e1
    rcases h1 with g1 | ⟨f1, g1⟩ <;> rcases h2 with g2 | ⟨f2, g2⟩
    · exact absurd (lt_trans g1 g2) (lt_irrefl _)
    · rw [f2] at g1
      exact absurd g1 (lt_irrefl _)
    · rw [f1] at g2
      exact absurd g2 (lt_irrefl _)
    · subst f1
      rw [le_antisymm g1 g2]

/-- The head of the descending sort is a maximum of the input list. -/
theorem sortDesc_head {l : List Cand} {c : Cand} {rest : List Cand}
    (h : pySortDescCand l = c :: rest) : c ∈ l ∧ ∀ x ∈ l, candLe x c := by
  haveI : IsTotal Cand (fun a b => candLe b a) := ⟨fun a b => candLe_total b a⟩
  haveI : IsTrans Cand (fun a b => candLe b a) :=
    ⟨fun _ _ _ hab hbc => candLe_trans hbc hab⟩
  have hperm : List.Perm (pySortDescCand l) l := List.perm_insertionSort _ l
  have hsort : List.Sorted (fun a b => candLe b a) (pySortDescCand l) :=
    List.sorted_insertionSort _ l
  constructor
  · exact hperm.mem_iff.mp (h ▸ List.mem_cons_self c rest)
  · intro x hx
    have hx' : x ∈ c :: rest := h ▸ hperm.symm.mem_iff.mp hx
    rcases List.mem_cons.mp hx' with hxc | hx''
    · exact hxc ▸ candLe_refl c
    · rw [h] at hsort
      exact (List.sorted_cons.mp hsort).1 x hx''

/-- An empty descending sort means an empty input. -/
theorem sortDesc_nil {l : List Cand} (h : pySortDescCand l = []) : l = [] := by
  have hperm : List.Perm (pySortDescCand l) l := List.perm_insertionSort _ l
  rw [h] at hperm
  exact (hperm.symm).eq_nil

/-- C3 amended: when the name tier misses and some extension token matches,
the assigned match is the display name of the MAXIMUM candidate under the
Python tuple order `(len(tok), tok, disp)` — the longest token wins, and ties
among equal-length tokens are broken in favour of the lexicographically
GREATEST token (and then greatest display name), not first-seen order. -/
theorem pygments_tiebreak_lexmax (name : String) (toks : List String)
    (aliasIndex : List (String × String)) (fnameIndex : List (String × List String))
    (builtinAliases : List (String × String))
    (hm1 : aliasIndex.lookup (normalize_key name) = none)
    (hm2 : (match builtinAliases.lookup (normalize_key name) with
            | some alt' => aliasIndex.lookup (normalize_key alt')
            | none => none) = none)
    (hne : pygCandidates toks fnameIndex ≠ []) :
    ∃ c ∈ pygCandidates toks fnameIndex,
      match_to_pygments name toks aliasIndex fnameIndex builtinAliases =
        some (String.mk c.2.2) ∧
      ∀ x ∈ pygCandidates toks fnameIndex, candLe x c := by
  cases hs : pySortDescCand (pygCandidates toks fnameIndex) with
  | nil => exact absurd (sortDesc_nil hs) hne
  | cons c rest =>
    obtain ⟨hmem, hdom⟩ := sortDesc_head hs
    refine ⟨c, hmem, ?_, hdom⟩
    simp only [match_to_pygments, hm1, hm2, hs]

/-- C3 amended witness: at the concrete tied tokens ".ab"/".zz" the theorem
produces the lexicographically greatest candidate. -/
theorem pygments_tiebreak_lexmax_witness :
    ∃ c ∈ pygCandidates [".ab", ".zz"] [(".ab", ["Alang"]), (".zz", ["Zlang"])],
      match_to_pygments "nosuch" [".ab", ".zz"] [] [(".ab", ["Alang"]), (".zz", ["Zlang"])]
        builtin_alias_table = some (String.mk c.2.2) ∧
      ∀ x ∈ pygCandidates [".ab", ".zz"] [(".ab", ["Alang"]), (".zz", ["Zlang"])], candLe x c :=
  pygments_tiebreak_lexmax "nosuch" [".ab", ".zz"] [] [(".ab", ["Alang"]), (".zz", ["Zlang"])]
    builtin_alias_table (by decide) (by decide) (by decide)

/-- C3 counterexample: two equal-length matching tokens ".ab" (seen first)
and ".zz"; the claim's first-seen tie-break predicts the match backed by
".ab" (namely "Alang"), but the code assigns "Zlang", backed by the
lexicographically greater token ".zz". -/
theorem pygments_firstseen_tiebreak_cex :
    match_to_pygments "nosuch" [".ab", ".zz"] [] [(".ab", ["Alang"]), (".zz", ["Zlang"])]
      builtin_alias_table = some "Zlang" ∧ (some "Zlang" : Option String) ≠ some "Alang" := by
  decide

/-- The gathered extension tokens depend only on the cells of the columns
being read. -/
theorem gather_eq_of_agree :
    ∀ (cols : List String) (r1 r2 : Row),
      (∀ c ∈ cols, r1.find? (fun kv => kv.1 = c) = r2.find? (fun kv => kv.1 = c)) →
      gather_row_ext_tokens r1 cols = gather_row_ext_tokens r2 cols
  | [], _, _, _ => rfl
  | c :: cs, r1, r2, h => by
    have ih := gather_eq_of_agree cs r1 r2 (fun x hx => h x (List.mem_cons_of_mem c hx))
    simp only [gather_row_ext_tokens, List.flatMap_cons] at ih ⊢
    rw [h c (List.mem_cons_self c cs), ih]

/-- C1 amended: the Pygments linker's secondary-evidence tier consults only
the autodetected extension/filename columns — `autodetect_extcols` is by
construction a pure function of the schema — and its matching decision
depends only on those columns' contents (besides the name fed to the name
tier): two rows agreeing on every autodetected column receive the same
match.  (The RosettaCode linker violates this: see the counterexample, a
full-row scan.) -/
theorem pygments_exttier_declared_columns (columns : List String) (r1 r2 : Row) (name : String)
    (aliasIndex : List (String × String)) (fnameIndex : List (String × List String))
    (builtinAliases : List (String × String))
    (hagree : ∀ c ∈ autodetect_extcols columns,
      r1.find? (fun kv => kv.1 = c) = r2.find? (fun kv => kv.1 = c)) :
    match_to_pygments name (gather_row_ext_tokens r1 (autodetect_extcols columns))
        aliasIndex fnameIndex builtinAliases =
      match_to_pygments name (gather_row_ext_tokens r2 (autodetect_extcols columns))
        aliasIndex fnameIndex builtinAliases := by
  rw [gather_eq_of_agree _ _ _ hagree]

/-- C1 amended witness: two rows that differ in their "name" column but agree
on the autodetected extension column get the same filename-tier match. -/
theorem pygments_exttier_declared_columns_witness :
    match_to_pygments "nosuch"
        (gather_row_ext_tokens [("name", Cell.s "X"), ("extensions", Cell.s ".vim")]
          (autodetect_extcols ["name", "extensions"]))
        [] [(".vim", ["VimL"])] builtin_alias_table =
      match_to_pygments "nosuch"
        (gather_row_ext_tokens [("name", Cell.s "Y"), ("extensions", Cell.s ".vim")]
          (autodetect_extcols ["name", "extensions"]))
        [] [(".vim", ["VimL"])] builtin_alias_table :=
  pygments_exttier_declared_columns ["name", "extensions"]
    [("name", Cell.s "X"), ("extensions", Cell.s ".vim")]
    [("name", Cell.s "Y"), ("extensions", Cell.s ".vim")]
    "nosuch" [] [(".vim", ["VimL"])] builtin_alias_table (by decide)

/-- C1 counterexample: the RosettaCode linker's index is built from every
string cell of every row.  Two catalogs with schema ["name", "notes"] — no
extension/filename-bearing column at all (`autodetect_extcols` selects
nothing) — that agree everywhere except in the "notes" cell of row 0 give the
foreign entry "Python" two different matches (row 0 vs row 1): the matching
decision depends on the content of a column outside any declared
extension/filename set, via a full-row scan.  The `closeMatch` stdlib
primitive is irrelevant here (the exact tier hits) and is instantiated with
the constantly-none function. -/
theorem rosetta_full_row_scan_cex :
    autodetect_extcols ["name", "notes"] = [] ∧
    map_rosetta_to_master (fun _ _ => none)
      (build_master_index_all_strings ["name", "notes"]
        [[("name", Cell.s "zzz"), ("notes", Cell.s "python")],
         [("name", Cell.s "python"), ("notes", Cell.s "")]]) "Python" = some 0 ∧
    map_rosetta_to_master (fun _ _ => none)
      (build_master_index_all_strings ["name", "notes"]
        [[("name", Cell.s "zzz"), ("notes", Cell.s "")],
         [("name", Cell.s "python"), ("notes", Cell.s "")]]) "Python" = some 1 := by
  decide

/-! Lemmas for the RosettaCode match-and-write loop (C10). -/

/-- `setRowAt` preserves the frame length. -/
theorem setRowAt_length : ∀ (m : List Row) (i : Nat) (f : Row → Row),
    (setRowAt m i f).length = m.length
  | [], _, _ => rfl
  | _ :: rs, 0, f => rfl
  | r :: rs, n + 1, f => by simp [setRowAt, setRowAt_length rs n f]

/-- Reading the written row. -/
theorem setRowAt_getD_same : ∀ (m : List Row) (i : Nat) (f : Row → Row), i < m.length →
    (setRowAt m i f).getD i [] = f (m.getD i [])
  | [], i, _, h => by simp at h
  | r :: rs, 0, f, _ => rfl
  | r :: rs, n + 1, f, h => by
    simp only [setRowAt, List.getD_cons_succ]
    exact setRowAt_getD_same rs n f (by simpa using h)

/-- Reading another row. -/
theorem setRowAt_getD_other : ∀ (m : List Row) (j i : Nat) (f : Row → Row), j ≠ i →
    (setRowAt m j f).getD i [] = m.getD i []
  | [], _, _, _, _ => by simp [setRowAt]
  | r :: rs, 0, 0, f, h => absurd rfl h
  | r :: rs, 0, i + 1, f, _ => rfl
  | r :: rs, j + 1, 0, f, _ => rfl
  | r :: rs, j + 1, i + 1, f, h => by
    simp only [setRowAt, List.getD_cons_succ]
    exact setRowAt_getD_other rs j i f (fun hc => h (by rw [hc]))

/-- The loop preserves the frame length. -/
theorem applyRosetta_length (matcher : String → Option Nat) :
    ∀ (es : List RcEntry) (m : List Row),
      (applyRosettaMatches m es matcher).length = m.length
  | [], _ => rfl
  | e :: es, m => by
    simp only [applyRosettaMatches, List.foldl_cons]
    cases hm : matcher e.name with
    | none =>
      simpa [applyRosettaMatches, hm] using applyRosetta_length matcher es m
    | some j =>
      have := applyRosetta_length matcher es (setRowAt m j (rcUpdate e))
      simpa [applyRosettaMatches, hm, setRowAt_length] using this

/-- After the loop, row `i` is either untouched (no matching entry) or ends
as `rcUpdate e` of some intermediate row, where `e` is the LAST entry of the
processed sequence matching `i`. -/
theorem applyRosetta_getD (matcher : String → Option Nat) :
    ∀ (es : List RcEntry) (m : List Row), ∀ i < m.length,
      ((es.filter fun e => matcher e.name = some i) = [] ∧
        (applyRosettaMatches m es matcher).getD i [] = m.getD i []) ∨
      (∃ e r0, ((es.filter fun e => matcher e.name = some i)).getLast? = some e ∧
        (applyRosettaMatches m es matcher).getD i [] = rcUpdate e r0)
  | [], m, i, _ => Or.inl ⟨rfl, rfl⟩
  | e :: es, m, i, hi => by
    simp only [applyRosettaMatches, List.foldl_cons, List.filter_cons]
    cases hm : matcher e.name with
    | none =>
      have ih := applyRosetta_getD matcher es m i hi
      simp only [applyRosettaMatches] at ih
      simpa [hm] using ih
    | some j =>
      by_cases hj : j = i
      · have hj' : i = j := hj.symm
        subst hj'
        have hlen : i < (setRowAt m i (rcUpdate e)).length := by
          rw [setRowAt_length]; exact hi
        have ih := applyRosetta_getD matcher es (setRowAt m i (rcUpdate e)) i hlen
        simp only [applyRosettaMatches] at ih
        have hcond : (decide ((some i : Option Nat) = some i)) = true := by simp
        rcases ih with ⟨hfil, heq⟩ | ⟨e', r0, hl, heq⟩
        · right
          refine ⟨e, m.getD i [], ?_, ?_⟩
          · rw [if_pos hcond, hfil]
            rfl
          · rw [heq, setRowAt_getD_same m i _ hi]
        · right
          refine ⟨e', r0, ?_, heq⟩
          rw [if_pos hcond]
          cases hfe : es.filter (fun x => decide (matcher x.name = some i)) with
          | nil =>
            rw [hfe] at hl
            exact Option.noConfusion hl
          | cons x xs =>
            rw [hfe] at hl
            rw [List.getLast?_cons_cons]
            exact hl
      · have hlen : i < (setRowAt m j (rcUpdate e)).length := by
          rw [setRowAt_length]; exact hi
        have ih := applyRosetta_getD matcher es (setRowAt m j (rcUpdate e)) i hlen
        simp only [applyRosettaMatches] at ih
        rcases ih with ⟨hfil, heq⟩ | ⟨e', r0, hl, heq⟩
        · left
          refine ⟨?_, ?_⟩
          · rw [if_neg (by simp [hj]), hfil]
          · rw [heq, setRowAt_getD_other m j i _ hj]
        · right
          refine ⟨e', r0, ?_, heq⟩
          rw [if_neg (by simp [hj])]
          exact hl

/-- Reading back the column just written. -/
theorem getCell_setCell_same : ∀ (r : Row) (k : String) (v : Cell),
    getCell (setCell r k v) k = v
  | [], k, v => by simp [getCell, setCell, List.find?]
  | (k', w) :: rest, k, v => by
    by_cases h : k' = k
    · subst h
      simp [setCell, getCell, List.find?]
    · simp only [setCell, if_neg h, getCell]
      rw [List.find?_cons_of_neg _ (by simpa using h)]
      simpa [getCell] using getCell_setCell_same rest k v

/-- Reading an untouched column. -/
theorem getCell_setCell_other : ∀ (r : Row) (k k' : String) (v : Cell), k' ≠ k →
    getCell (setCell r k v) k' = getCell r k'
  | [], k, k', v, h => by
    simp only [setCell, getCell]
    rw [List.find?_cons_of_neg _ (by simp only [decide_eq_true_eq]; exact fun hc => h hc.symm)]
  | (k0, w) :: rest, k, k', v, h => by
    by_cases h0 : k0 = k
    · subst h0
      have hset : setCell ((k0, w) :: rest) k0 v = (k0, v) :: rest := by
        simp [setCell]
      rw [hset]
      simp only [getCell]
      rw [List.find?_cons_of_neg _ (by simp only [decide_eq_true_eq]; exact fun hc => h hc.symm),
          List.find?_cons_of_neg _ (by simp only [decide_eq_true_eq]; exact fun hc => h hc.symm)]
    · simp only [setCell, if_neg h0, getCell]
      by_cases h1 : k0 = k'
      · rw [List.find?_cons_of_pos _ (by simpa using h1),
            List.find?_cons_of_pos _ (by simpa using h1)]
      · rw [List.find?_cons_of_neg _ (by simpa using h1),
            List.find?_cons_of_neg _ (by simpa using h1)]
        simpa [getCell] using getCell_setCell_other rest k k' v h

/-- The five fields written by a match. -/
theorem rcUpdate_fields (e : RcEntry) (r : Row) :
    getCell (rcUpdate e r) "in_rosettacode" = Cell.b true ∧
    getCell (rcUpdate e r) "rosettacode_name" = Cell.s e.name ∧
    getCell (rcUpdate e r) "rosettacode_url" = Cell.s e.url ∧
    getCell (rcUpdate e r) "rosettacode_summary" = Cell.s e.summary ∧
    getCell (rcUpdate e r) "rosettacode_tasks_count" = Cell.i e.tasksCount := by
  unfold rcUpdate
  refine ⟨?_, ?_, ?_, ?_, ?_⟩
  · rw [getCell_setCell_other _ _ _ _ (by decide), getCell_setCell_other _ _ _ _ (by decide),
        getCell_setCell_other _ _ _ _ (by decide), getCell_setCell_other _ _ _ _ (by decide),
        getCell_setCell_same]
  · rw [getCell_setCell_other _ _ _ _ (by decide), getCell_setCell_other _ _ _ _ (by decide),
        getCell_setCell_other _ _ _ _ (by decide), getCell_setCell_same]
  · rw [getCell_setCell_other _ _ _ _ (by decide), getCell_setCell_other _ _ _ _ (by decide),
        getCell_setCell_same]
  · rw [getCell_setCell_other _ _ _ _ (by decide), getCell_setCell_same]
  · rw [getCell_setCell_same]

/-- C10: when several foreign entries map to the same master row, after the
linker run that row's RosettaCode fields equal those of the LAST matching
entry in sorted `rosettacode_name` order (each later match silently
overwrites the earlier ones), and `in_rosettacode` is True. -/
theorem rosetta_last_sorted_match_wins (master : List Row) (entries : List RcEntry)
    (matcher : String → Option Nat) (i : Nat) (elast : RcEntry)
    (hi : i < master.length)
    (hlast : ((sortRcByName entries).filter fun e => matcher e.name = some i).getLast?
      = some elast) :
    getCell ((rcLinkMain master entries matcher).getD i []) "in_rosettacode" = Cell.b true ∧
    getCell ((rcLinkMain master entries matcher).getD i []) "rosettacode_name"
      = Cell.s elast.name ∧
    getCell ((rcLinkMain master entries matcher).getD i []) "rosettacode_url"
      = Cell.s elast.url ∧
    getCell ((rcLinkMain master entries matcher).getD i []) "rosettacode_summary"
      = Cell.s elast.summary ∧
    getCell ((rcLinkMain master entries matcher).getD i []) "rosettacode_tasks_count"
      = Cell.i elast.tasksCount := by
  have hi' : i < (rcEnsureCols master).length := by
    simpa [rcEnsureCols] using hi
  rcases applyRosetta_getD matcher (sortRcByName entries) (rcEnsureCols master) i hi' with
    ⟨hfil, _⟩ | ⟨e, r0, hl, heq⟩
  · rw [hfil] at hlast
    exact absurd hlast (by simp)
  · rw [hl] at hlast
    injection hlast with he
    subst he
    unfold rcLinkMain
    rw [heq]
    exact rcUpdate_fields e r0

/-- C10 witness: one master row matched by the two entries named "B" and "A"
(sorted order A then B): the surviving fields are B's. -/
theorem rosetta_last_sorted_match_wins_witness :
    getCell ((rcLinkMain [[("lang_id", Cell.s "x")]]
        [RcEntry.mk "B" "uB" "sB" 2, RcEntry.mk "A" "uA" "sA" 1]
        (fun _ => some 0)).getD 0 []) "in_rosettacode" = Cell.b true ∧
    getCell ((rcLinkMain [[("lang_id", Cell.s "x")]]
        [RcEntry.mk "B" "uB" "sB" 2, RcEntry.mk "A" "uA" "sA" 1]
        (fun _ => some 0)).getD 0 []) "rosettacode_name" = Cell.s "B" ∧
    getCell ((rcLinkMain [[("lang_id", Cell.s "x")]]
        [RcEntry.mk "B" "uB" "sB" 2, RcEntry.mk "A" "uA" "sA" 1]
        (fun _ => some 0)).getD 0 []) "rosettacode_url" = Cell.s "uB" ∧
    getCell ((rcLinkMain [[("lang_id", Cell.s "x")]]
        [RcEntry.mk "B" "uB" "sB" 2, RcEntry.mk "A" "uA" "sA" 1]
        (fun _ => some 0)).getD 0 []) "rosettacode_summary" = Cell.s "sB" ∧
    getCell ((rcLinkMain [[("lang_id", Cell.s "x")]]
        [RcEntry.mk "B" "uB" "sB" 2, RcEntry.mk "A" "uA" "sA" 1]
        (fun _ => some 0)).getD 0 []) "rosettacode_tasks_count" = Cell.i 2 :=
  rosetta_last_sorted_match_wins [[("lang_id", Cell.s "x")]]
    [RcEntry.mk "B" "uB" "sB" 2, RcEntry.mk "A" "uA" "sA" 1]
    (fun _ => some 0) 0 (RcEntry.mk "B" "uB" "sB" 2) (by decide) (by decide)

/-! C5: the Pygments linking computation is a function of its inputs as
abstract data.  The only aggregate whose concrete representation is
underdetermined by the inputs is the Python SET `fname_index[tok]` (set
iteration order is unspecified); everything else is dicts and lists, whose
order is determined by the input.  We therefore prove that the whole match
pass and the missing-report are unchanged when each token's display-name set
is presented in any other enumeration. -/

/-- Characterization of filename-tier candidates. -/
theorem mem_pygCandidates {x : Cand} {toks : List String} {fi : List (String × List String)} :
    x ∈ pygCandidates toks fi ↔
      ∃ tok disp, tok ∈ toks ∧ fnameMem fi tok disp ∧
        x = (tok.length, tok.toList, disp.toList) := by
  unfold pygCandidates
  rw [List.mem_flatMap]
  constructor
  · rintro ⟨tok, htok, hx⟩
    cases hfi : fi.lookup tok with
    | none =>
      rw [hfi] at hx
      exact absurd hx (List.not_mem_nil x)
    | some l =>
      rw [hfi] at hx
      rw [List.mem_map] at hx
      obtain ⟨disp, hdisp, hxe⟩ := hx
      exact ⟨tok, disp, htok, ⟨l, hfi, hdisp⟩, hxe.symm⟩
  · rintro ⟨tok, disp, htok, ⟨l, hfi, hdisp⟩, rfl⟩
    refine ⟨tok, htok, ?_⟩
    rw [hfi, List.mem_map]
    exact ⟨disp, hdisp, rfl⟩

/-- Two filename indexes with the same membership produce the same
candidates, as sets. -/
theorem pygCandidates_mem_iff {fi₁ fi₂ : List (String × List String)} (toks : List String)
    (h : ∀ tok disp, fnameMem fi₁ tok disp ↔ fnameMem fi₂ tok disp) (x : Cand) :
    x ∈ pygCandidates toks fi₁ ↔ x ∈ pygCandidates toks fi₂ := by
  rw [mem_pygCandidates, mem_pygCandidates]
  constructor
  · rintro ⟨tok, disp, ht, hm, rfl⟩
    exact ⟨tok, disp, ht, (h tok disp).mp hm, rfl⟩
  · rintro ⟨tok, disp, ht, hm, rfl⟩
    exact ⟨tok, disp, ht, (h tok disp).mpr hm, rfl⟩

/-- One match is unchanged when the filename index is re-enumerated. -/
theorem match_to_pygments_set_invariant (name : String) (toks : List String)
    (aliasIndex : List (String × String)) (builtinAliases : List (String × String))
    {fi₁ fi₂ : List (String × List String)}
    (h : ∀ tok disp, fnameMem fi₁ tok disp ↔ fnameMem fi₂ tok disp) :
    match_to_pygments name toks aliasIndex fi₁ builtinAliases =
      match_to_pygments name toks aliasIndex fi₂ builtinAliases := by
  simp only [match_to_pygments]
  cases h1 : aliasIndex.lookup (normalize_key name) with
  | some d => rfl
  | none =>
    cases h2 : (match builtinAliases.lookup (normalize_key name) with
                | some alt' => aliasIndex.lookup (normalize_key alt')
                | none => none) with
    | some d => rfl
    | none =>
      simp only
      cases hs1 : pySortDescCand (pygCandidates toks fi₁) with
      | nil =>
        cases hs2 : pySortDescCand (pygCandidates toks fi₂) with
        | nil => rfl
        | cons c2 r2 =>
          obtain ⟨hm2, _⟩ := sortDesc_head hs2
          have hmem : c2 ∈ pygCandidates toks fi₁ :=
            (pygCandidates_mem_iff toks h c2).mpr hm2
          rw [sortDesc_nil hs1] at hmem
          exact absurd hmem (List.not_mem_nil _)
      | cons c1 r1 =>
        cases hs2 : pySortDescCand (pygCandidates toks fi₂) with
        | nil =>
          obtain ⟨hm1, _⟩ := sortDesc_head hs1
          have hmem : c1 ∈ pygCandidates toks fi₂ :=
            (pygCandidates_mem_iff toks h c1).mp hm1
          rw [sortDesc_nil hs2] at hmem
          exact absurd hmem (List.not_mem_nil _)
        | cons c2 r2 =>
          obtain ⟨hm1, hd1⟩ := sortDesc_head hs1
          obtain ⟨hm2, hd2⟩ := sortDesc_head hs2
          have e12 : candLe c1 c2 := hd2 c1 ((pygCandidates_mem_iff toks h c1).mp hm1)
          have e21 : candLe c2 c1 := hd1 c2 ((pygCandidates_mem_iff toks h c2).mpr hm2)
          rw [candLe_antisymm e21 e12]

/-- C5: the Pygments External Taxonomy Linker is a deterministic function of
its two inputs — the catalog and the foreign index as abstract data.  The
match assignment and the missing-report are unchanged when each token's
display-name set in the filename index is presented in any other enumeration
(Python set iteration order is the only representation freedom in the
inputs); in particular, re-running the linker on the same catalog and the
same foreign index reproduces an identical enriched assignment and an
identical missing-report. -/
theorem pygments_linker_deterministic (rows : List Row) (candidates extcols : List String)
    (aliasIndex : List (String × String)) (builtinAliases : List (String × String))
    (lexNames : List String) {fi₁ fi₂ : List (String × List String)}
    (h : ∀ tok disp, fnameMem fi₁ tok disp ↔ fnameMem fi₂ tok disp) :
    runPygmentsMatches rows candidates extcols aliasIndex fi₁ builtinAliases =
      runPygmentsMatches rows candidates extcols aliasIndex fi₂ builtinAliases ∧
    pygmentsMissing lexNames
        (runPygmentsMatches rows candidates extcols aliasIndex fi₁ builtinAliases) =
      pygmentsMissing lexNames
        (runPygmentsMatches rows candidates extcols aliasIndex fi₂ builtinAliases) := by
  have hrun : runPygmentsMatches rows candidates extcols aliasIndex fi₁ builtinAliases =
      runPygmentsMatches rows candidates extcols aliasIndex fi₂ builtinAliases := by
    unfold runPygmentsMatches
    apply List.map_congr_left
    intro row _
    exact match_to_pygments_set_invariant _ _ _ _ h
  exact ⟨hrun, by rw [hrun]⟩

/-- C5 witness: a concrete run over one catalog row where the ".py" entry's
display-name set is enumerated in the two opposite orders. -/
theorem pygments_linker_deterministic_witness :
    runPygmentsMatches [[("name", Cell.s "X"), ("extensions", Cell.s ".py")]]
        ["name"] ["extensions"] [] [(".py", ["A", "B"])] builtin_alias_table =
      runPygmentsMatches [[("name", Cell.s "X"), ("extensions", Cell.s ".py")]]
        ["name"] ["extensions"] [] [(".py", ["B", "A"])] builtin_alias_table ∧
    pygmentsMissing ["A", "B"]
        (runPygmentsMatches [[("name", Cell.s "X"), ("extensions", Cell.s ".py")]]
          ["name"] ["extensions"] [] [(".py", ["A", "B"])] builtin_alias_table) =
      pygmentsMissing ["A", "B"]
        (runPygmentsMatches [[("name", Cell.s "X"), ("extensions", Cell.s ".py")]]
          ["name"] ["extensions"] [] [(".py", ["B", "A"])] builtin_alias_table) := by
  refine pygments_linker_deterministic _ _ _ _ _ _ ?_
  intro tok disp
  by_cases ht : tok = ".py"
  · subst ht
    constructor
    · rintro ⟨l, hl, hd⟩
      simp only [List.lookup, beq_self_eq_true] at hl
      injection hl with hl'
      subst hl'
      refine ⟨["B", "A"], by simp [List.lookup], ?_⟩
      simp only [List.mem_cons, List.mem_singleton] at hd ⊢
      tauto
    · rintro ⟨l, hl, hd⟩
      simp only [List.lookup, beq_self_eq_true] at hl
      injection hl with hl'
      subst hl'
      refine ⟨["A", "B"], by simp [List.lookup], ?_⟩
      simp only [List.mem_cons, List.mem_singleton] at hd ⊢
      tauto
  · have hbeq : (tok == ".py") = false := beq_eq_false_iff_ne.mpr ht
    constructor
    · rintro ⟨l, hl, _⟩
      simp only [List.lookup, hbeq] at hl
      exact absurd hl (by simp)
    · rintro ⟨l, hl, _⟩
      simp only [List.lookup, hbeq] at hl
      exact absurd hl (by simp)

/-! C4: the fuzzy collapse. -/

/-- `x or ""` is the identity on strings. -/
theorem pyOrEmpty_eq (s : String) : pyOrEmpty s = s := by
  unfold pyOrEmpty
  split
  next h => exact h.symm
  next => rfl

/-- The semicolon pieces of a two-cell `merge_flags` value are exactly the
union of the pieces of the two inputs. -/
theorem mem_pieces_merge_flags (fa fb : String) (x : List Char) :
    x ∈ splitOnP (· == ';') (cellStr (merge_flags [Cell.s fa, Cell.s fb])).toList ↔
      x ∈ splitOnP (· == ';') fa.toList ∨ x ∈ splitOnP (· == ';') fb.toList := by
  have hS : splitOnP (· == ';') (joinChar ';' [fa.toList, fb.toList]) =
      splitOnP (· == ';') fa.toList ++ splitOnP (· == ';') fb.toList := by
    show splitOnP (· == ';') (fa.toList ++ ';' :: fb.toList) = _
    exact splitOnP_append _ rfl _ _
  show x ∈ splitOnP (· == ';')
      (pyOrEmpty (String.mk (joinChar ';' (pySortedSet
        (splitOnP (· == ';') (joinChar ';' [fa.toList, fb.toList])))))).toList ↔ _
  rw [pyOrEmpty_eq]
  have hfree : ∀ piece ∈ pySortedSet
      (splitOnP (· == ';') (joinChar ';' [fa.toList, fb.toList])),
      ∀ c ∈ piece, (c == ';') = false := by
    intro piece hp c hc
    rw [mem_pySortedSet] at hp
    exact splitOnP_pieces_sep_free _ _ piece hp c hc
  have hne : pySortedSet (splitOnP (· == ';') (joinChar ';' [fa.toList, fb.toList])) ≠ [] := by
    intro hc
    have hlen := congrArg List.length hc
    simp only [pySortedSet, List.length_nil] at hlen
    rw [(List.perm_insertionSort _ _).length_eq, List.length_eq_zero, List.dedup_eq_nil] at hlen
    exact splitOnP_ne_nil _ _ hlen
  rw [show (String.mk (joinChar ';' (pySortedSet
      (splitOnP (· == ';') (joinChar ';' [fa.toList, fb.toList]))))).toList
    = joinChar ';' (pySortedSet
      (splitOnP (· == ';') (joinChar ';' [fa.toList, fb.toList]))) from rfl]
  rw [splitOnP_joinChar_inv _ rfl hfree hne, mem_pySortedSet, hS, List.mem_append]

/-- C4 counterexample: the identifiers "ab" and "ab2" differ only by a
trailing numeral and share their first character, yet the fuzzy collapse
leaves the catalog unchanged — two separate identities — because their
rapidfuzz ratio is 80, below the 94 threshold (short stems never reach it).
The claim predicts one surviving identity. -/
theorem fuzzy_collapse_short_pair_cex :
    collapseStep
        [[("lang_id", Cell.s "ab"), ("source_flags", Cell.s "pldb;wikipedia")],
         [("lang_id", Cell.s "ab2"), ("source_flags", Cell.s "linguist")]] []
      = [[("lang_id", Cell.s "ab"), ("source_flags", Cell.s "pldb;wikipedia")],
         [("lang_id", Cell.s "ab2"), ("source_flags", Cell.s "linguist")]] ∧
    ratioGe94 "ab" "ab2" = false ∧ ("ab" : String) ≠ "ab2" := by
  decide

/-- C4 amended: a pair of identifiers sharing a first character DOES collapse
when its similarity ratio reaches the 94 threshold (which for
trailing-numeral or transliterated pairs requires a long enough stem): for a
two-identity catalog the result is a single surviving identity, keeping the
identifier whose `source_flags` has at least as many semicolon-separated
entries, with the union of both identities' source flags. -/
theorem fuzzy_collapse_pair (a b fa fb : String)
    (hab : a ≠ b) (ha0 : a ≠ "") (hb0 : b ≠ "")
    (hch : a.toList.headD ' ' = b.toList.headD ' ')
    (hr : ratioGe94 a b = true)
    (hcnt : (splitOnP (· == ';') fb.toList).length ≤ (splitOnP (· == ';') fa.toList).length) :
    ∃ row : Row,
      collapseStep
          [[("lang_id", Cell.s a), ("source_flags", Cell.s fa)],
           [("lang_id", Cell.s b), ("source_flags", Cell.s fb)]] [] = [row] ∧
      getCell row "lang_id" = Cell.s a ∧
      getCell row "source_flags" = merge_flags [Cell.s fa, Cell.s fb] ∧
      ∀ x : List Char,
        x ∈ splitOnP (· == ';') (cellStr (getCell row "source_flags")).toList ↔
          x ∈ splitOnP (· == ';') fa.toList ∨ x ∈ splitOnP (· == ';') fb.toList := by
  have hids : (([([("lang_id", Cell.s a), ("source_flags", Cell.s fa)] : Row),
      [("lang_id", Cell.s b), ("source_flags", Cell.s fb)]].map langIdOf).filter (· ≠ ""))
      = [a, b] := by
    show ([a, b].filter (· ≠ "")) = [a, b]
    simp [ha0, hb0]
  have hsa : flagsPieceCount
      [([("lang_id", Cell.s a), ("source_flags", Cell.s fa)] : Row),
       [("lang_id", Cell.s b), ("source_flags", Cell.s fb)]] a
      = (splitOnP (· == ';') fa.toList).length := by
    have hp1 : (fun r => decide (langIdOf r = a))
        ([("lang_id", Cell.s a), ("source_flags", Cell.s fa)] : Row) = true :=
      decide_eq_true rfl
    have hfind : List.find? (fun r => decide (langIdOf r = a))
        [([("lang_id", Cell.s a), ("source_flags", Cell.s fa)] : Row),
         [("lang_id", Cell.s b), ("source_flags", Cell.s fb)]]
        = some [("lang_id", Cell.s a), ("source_flags", Cell.s fa)] :=
      List.find?_cons_of_pos _ hp1
    unfold flagsPieceCount
    rw [hfind]
    rfl
  have hsb : flagsPieceCount
      [([("lang_id", Cell.s a), ("source_flags", Cell.s fa)] : Row),
       [("lang_id", Cell.s b), ("source_flags", Cell.s fb)]] b
      = (splitOnP (· == ';') fb.toList).length := by
    have hneg : ¬ ((fun r => decide (langIdOf r = b))
        ([("lang_id", Cell.s a), ("source_flags", Cell.s fa)] : Row) = true) := by
      simp only [decide_eq_true_eq]
      exact hab
    have hpos : (fun r => decide (langIdOf r = b))
        ([("lang_id", Cell.s b), ("source_flags", Cell.s fb)] : Row) = true :=
      decide_eq_true rfl
    have hstep1 : List.find? (fun r => decide (langIdOf r = b))
        [([("lang_id", Cell.s a), ("source_flags", Cell.s fa)] : Row),
         [("lang_id", Cell.s b), ("source_flags", Cell.s fb)]]
        = List.find? (fun r => decide (langIdOf r = b))
          [([("lang_id", Cell.s b), ("source_flags", Cell.s fb)] : Row)] :=
      List.find?_cons_of_neg _ hneg
    have hstep2 : List.find? (fun r => decide (langIdOf r = b))
        [([("lang_id", Cell.s b), ("source_flags", Cell.s fb)] : Row)]
        = some [("lang_id", Cell.s b), ("source_flags", Cell.s fb)] :=
      List.find?_cons_of_pos _ hpos
    unfold flagsPieceCount
    rw [hstep1.trans hstep2]
    rfl
  have hmap : buildIdMap
      [([("lang_id", Cell.s a), ("source_flags", Cell.s fa)] : Row),
       [("lang_id", Cell.s b), ("source_flags", Cell.s fb)]] [a, b] = [(b, a)] := by
    show (if a = "" ∨ b = "" then ([] : List (String × String))
      else if a.toList.headD ' ' ≠ b.toList.headD ' ' then []
      else if ratioGe94 a b then
        if flagsPieceCount
            [([("lang_id", Cell.s a), ("source_flags", Cell.s fa)] : Row),
             [("lang_id", Cell.s b), ("source_flags", Cell.s fb)]] a ≥
          flagsPieceCount
            [([("lang_id", Cell.s a), ("source_flags", Cell.s fa)] : Row),
             [("lang_id", Cell.s b), ("source_flags", Cell.s fb)]] b
        then [(b, a)] else [(a, b)]
      else []) = [(b, a)]
    rw [if_neg (by push_neg; exact ⟨ha0, hb0⟩), if_neg (fun hcon => hcon hch), if_pos hr,
        if_pos (by rw [hsa, hsb]; exact hcnt)]
  have happa : idMapApply [(b, a)] a = a := by
    unfold idMapApply
    rw [show (List.lookup a [(b, a)]) = none from by
      simp [List.lookup, beq_eq_false_iff_ne.mpr hab]]
    rfl
  have happb : idMapApply [(b, a)] b = a := by
    unfold idMapApply
    simp [List.lookup]
  have hmapped : [a, b].map (idMapApply [(b, a)]) = [a, a] := by
    rw [List.map_cons, List.map_cons, List.map_nil, happa, happb]
  have hone : pySortedSetStr [a, a] = [a] := by
    simp only [pySortedSetStr, pySortedSet]
    rw [show (List.map String.toList [a, a]) = [a.toList, a.toList] from rfl]
    rw [List.dedup_cons_of_mem (List.mem_singleton.mpr rfl)]
    rfl
  have htwo : (pySortedSetStr [a, b]).length = 2 := by
    simp only [pySortedSetStr, pySortedSet]
    rw [List.length_map, (List.perm_insertionSort _ _).length_eq]
    rw [show (List.map String.toList [a, b]) = [a.toList, b.toList] from rfl]
    rw [List.dedup_eq_self.mpr ?_]
    · rfl
    · refine List.nodup_cons.mpr ⟨?_, List.nodup_singleton _⟩
      intro hmem
      rw [List.mem_singleton] at hmem
      exact hab (congrArg String.mk hmem)
  have hcond : pySortedSetStr [a, a] ≠ pySortedSetStr [a, b] := by
    intro hc
    rw [hone] at hc
    have hl := congrArg List.length hc
    rw [htwo] at hl
    simp at hl
  have hfil2 : (([([("lang_id", Cell.s a), ("source_flags", Cell.s fa)] : Row),
      [("lang_id", Cell.s a), ("source_flags", Cell.s fb)]]).filter
        (fun r => langIdOf r = a))
      = [([("lang_id", Cell.s a), ("source_flags", Cell.s fa)] : Row),
         [("lang_id", Cell.s a), ("source_flags", Cell.s fb)]] := by
    refine List.filter_eq_self.mpr ?_
    intro r hr
    rcases List.mem_cons.mp hr with hr1 | hr2
    · subst hr1
      exact decide_eq_true rfl
    · rw [List.mem_singleton] at hr2
      subst hr2
      exact decide_eq_true rfl
  have hval : collapseStep
      [[("lang_id", Cell.s a), ("source_flags", Cell.s fa)],
       [("lang_id", Cell.s b), ("source_flags", Cell.s fb)]] [] =
      [setCell (("lang_id", Cell.s a) :: AGG_COLUMNS.map (fun c => (c, aggFun c
          ([([("lang_id", Cell.s a), ("source_flags", Cell.s fa)] : Row),
            [("lang_id", Cell.s a), ("source_flags", Cell.s fb)]].map (fun r => getCell r c)))))
        "alias_count" (Cell.i 0)] := by
    simp only [collapseStep]
    rw [hids, hmap, hmapped, if_neg hcond]
    rw [show ([([("lang_id", Cell.s a), ("source_flags", Cell.s fa)] : Row),
        [("lang_id", Cell.s b), ("source_flags", Cell.s fb)]].map
          (fun r => setCell r "lang_id" (Cell.s (idMapApply [(b, a)] (langIdOf r)))))
      = [setCell [("lang_id", Cell.s a), ("source_flags", Cell.s fa)] "lang_id"
          (Cell.s (idMapApply [(b, a)] a)),
         setCell [("lang_id", Cell.s b), ("source_flags", Cell.s fb)] "lang_id"
          (Cell.s (idMapApply [(b, a)] b))] from rfl]
    rw [happa, happb]
    rw [show (setCell [("lang_id", Cell.s a), ("source_flags", Cell.s fa)] "lang_id"
        (Cell.s a)) = [("lang_id", Cell.s a), ("source_flags", Cell.s fa)] from rfl]
    rw [show (setCell [("lang_id", Cell.s b), ("source_flags", Cell.s fb)] "lang_id"
        (Cell.s a)) = [("lang_id", Cell.s a), ("source_flags", Cell.s fb)] from rfl]
    simp only [groupbyAgg]
    rw [show ([([("lang_id", Cell.s a), ("source_flags", Cell.s fa)] : Row),
        [("lang_id", Cell.s a), ("source_flags", Cell.s fb)]].map langIdOf) = [a, a] from rfl]
    rw [hone, List.map_cons, List.map_nil, hfil2]
    rfl
  exact ⟨_, hval, rfl, rfl, fun x => mem_pieces_merge_flags fa fb x⟩

/-- C4 amended witness: "javascript" and "javascript1" (ratio 95.2 ≥ 94,
sharing the head letter, with 2 vs 1 source flags) collapse into one row
keeping "javascript" with the union of the flags. -/
theorem fuzzy_collapse_pair_witness :
    ∃ row : Row,
      collapseStep
          [[("lang_id", Cell.s "javascript"), ("source_flags", Cell.s "pldb;wikipedia")],
           [("lang_id", Cell.s "javascript1"), ("source_flags", Cell.s "linguist")]] [] = [row] ∧
      getCell row "lang_id" = Cell.s "javascript" ∧
      getCell row "source_flags" =
        merge_flags [Cell.s "pldb;wikipedia", Cell.s "linguist"] ∧
      ∀ x : List Char,
        x ∈ splitOnP (· == ';') (cellStr (getCell row "source_flags")).toList ↔
          x ∈ splitOnP (· == ';') ("pldb;wikipedia" : String).toList ∨
            x ∈ splitOnP (· == ';') ("linguist" : String).toList :=
  fuzzy_collapse_pair "javascript" "javascript1" "pldb;wikipedia" "linguist"
    (by decide) (by decide) (by decide) (by decide) (by decide) (by decide)

end PLUltimate
